import Mathlib

/-!
# go-usbtemp: the 1-Wire protocol engine of `main.go`

A shallow embedding of package `usbtemp` (`src/main.go`): the reset/presence
detector `reset`, the byte transceiver `writeByte` / `write` / `readBytes`,
the checksum `crc8` and the two public commands `Rom` and `Temperature`.

* A Go `byte` is a `Fin 256`; the Go `int` accumulators are `Nat` (they never
  leave `[0, 255]`, so no wrap-around is involved) and are converted back with
  an explicit `% 256`.
* The serial port (`go.bug.st/serial`, interface `serial.Port`) is external to
  the repository.  It is a parameter: a record `Port σ` of state-passing
  operations over an arbitrary port state `σ`.
* Every call on the port is appended to a ghost `trace`, so that statements
  about what was written, in which order, and what happened afterwards can be
  made about a run.
* A Go function returning `(value, error)` returns the pair
  `(value, Option Error)` here, `none` being Go's `nil` error.
* The read loop of `writeByte` has no bound in the source.  The embedding takes
  a bound `fuel` on the number of `Read` calls of one `writeByte`; `none` means
  that the bound was hit with fewer than 8 bytes received.
* A `float32` is represented by the rational number it denotes; every
  `float32` operation rounds its exact result with `f32round`.
* `Open` reads through a pointer that may be nil; it returns an `Outcome`,
  which is either the returned value or the nil dereference that stops the call.
  The two library calls of `Open` (the enumeration of the ports and
  `serial.Open`) are parameters.
* The mode of the port at a point of a trace is that of the last `SetMode`
  that succeeded before it (`modeAfter`, `transfers`).
* The reference for the checksum is a remainder of polynomials over `ZMod 2`
  (`maximPolynomial`, `bitPolynomial`, `maximRemainder`): these three are
  mathematics rather than code and are the only definitions that do not
  evaluate.
-/

set_option linter.dupNamespace false
set_option maxRecDepth 100000

namespace usbtemp

/-! ## Data model -/

/-- Go's `byte`. -/
abbrev Byte := Fin 256

/-- The `error` values of the package: one constructor per `fmt.Errorf` site of
`main.go`, plus the errors that come out of the serial port. -/
inductive Error where
  /-- an error value returned by the serial port itself -/
  | transport (code : Nat)
  /-- Message `"reset() setmode failed: %w"` -/
  | resetSetMode (cause : Error)
  /-- Message `"reset() failed: invalid reply length"` -/
  | resetReplyLength
  /-- Message `"reset() failed: no device present"` -/
  | resetNoDevice
  /-- Message `"reset() failed: short circuit"` -/
  | resetShortCircuit
  /-- Message `"reset() failed, presence error: %v"` with the response byte -/
  | resetPresence (response : Byte)
  /-- Message `"writeByte(): %w"` -/
  | writeByteFailed (cause : Error)
  /-- Message `"writeByte(): # of bytes written incorrect"` -/
  | writeByteCount
  /-- Message `"write(): %w"` -/
  | writeFailed (cause : Error)
  /-- Message `"write(): read byte does not match write"` -/
  | writeMismatch
  /-- Message `"readBytes(): %w"` -/
  | readBytesFailed (cause : Error)
  /-- Message `"Rom() read failed: %w"` -/
  | romReadFailed (cause : Error)
  /-- Message `"Temperature() failed: CRC validation"` -/
  | crcValidation
  deriving DecidableEq, Repr

/-- The fields of `serial.Mode` that the package sets. -/
structure Mode where
  BaudRate : Nat
  DataBits : Nat
  deriving DecidableEq, Repr

/-- Source: `var mode115200 = &serial.Mode { BaudRate: 115200, DataBits: 8 }` -/
def mode115200 : Mode := { BaudRate := 115200, DataBits := 8 }

/-- Source: `var mode9600 = &serial.Mode { BaudRate: 9600, DataBits: 8 }` -/
def mode9600 : Mode := { BaudRate := 9600, DataBits := 8 }

/-- The methods of `serial.Port` that the package calls, over a port state `σ`.
`Read len` is a `Read` into a buffer of `len` bytes: it returns the bytes it
stored at the front of the buffer (their number is Go's `n`) and the error.
`Read_le` is the contract `0 <= n <= len(p)` of `io.Reader`. -/
structure Port (σ : Type) where
  SetMode : Mode → σ → Option Error × σ
  Drain : σ → Option Error × σ
  Write : List Byte → σ → (Nat × Option Error) × σ
  Read : Nat → σ → (List Byte × Option Error) × σ
  Read_le : ∀ (len : Nat) (s : σ), (Read len s).1.1.length ≤ len

/-- One entry of the ghost trace: a call on the port with what it returned, or
the `time.Sleep` of `Temperature`. -/
inductive Event where
  | SetMode (mode : Mode) (err : Option Error)
  | Drain (err : Option Error)
  | Write (p : List Byte) (n : Nat) (err : Option Error)
  | Read (len : Nat) (data : List Byte) (err : Option Error)
  | Sleep (seconds : Nat)
  deriving DecidableEq, Repr

/-- The receiver `u *USBtemp`: the three identity fields, the state of the open
port, and the ghost trace of the calls made so far (oldest first). -/
structure USBtemp (σ : Type) where
  Name : String
  Id : String
  SerialNumber : String
  port : σ
  trace : List Event
  deriving DecidableEq

variable {σ : Type}

/-! ## Calls on the port, recorded in the trace -/

/-- The call `u.port.SetMode(mode)` -/
def portSetMode (P : Port σ) (mode : Mode) (u : USBtemp σ) : USBtemp σ × Option Error :=
  let r := P.SetMode mode u.port
  ({ u with port := r.2, trace := u.trace ++ [Event.SetMode mode r.1] }, r.1)

/-- The call `u.port.Drain()` -/
def portDrain (P : Port σ) (u : USBtemp σ) : USBtemp σ × Option Error :=
  let r := P.Drain u.port
  ({ u with port := r.2, trace := u.trace ++ [Event.Drain r.1] }, r.1)

/-- The call `u.port.Write(p)` -/
def portWrite (P : Port σ) (p : List Byte) (u : USBtemp σ) :
    USBtemp σ × (Nat × Option Error) :=
  let r := P.Write p u.port
  ({ u with port := r.2, trace := u.trace ++ [Event.Write p r.1.1 r.1.2] }, r.1)

/-- The call `u.port.Read(buf)` with `len(buf) = len`. -/
def portRead (P : Port σ) (len : Nat) (u : USBtemp σ) :
    USBtemp σ × (List Byte × Option Error) :=
  let r := P.Read len u.port
  ({ u with port := r.2, trace := u.trace ++ [Event.Read len r.1.1 r.1.2] }, r.1)

/-- The call `time.Sleep(time.Second)`: only recorded. -/
def sleepSecond (u : USBtemp σ) : USBtemp σ :=
  { u with trace := u.trace ++ [Event.Sleep 1] }

/-- The content of a buffer `buf` after a `Read` stored `data` at its front. -/
def fillBuffer (buf data : List Byte) : List Byte :=
  data ++ buf.drop data.length

/-! ## `reset` -/

/-- Lines 136-150 of `reset`: the classification of the reply buffer. -/
def resetClassify (rbuff : List Byte) : Option Error :=
  if rbuff.length ≠ 1 then some Error.resetReplyLength
  else if rbuff.getD 0 0 = 0xf0 then some Error.resetNoDevice
  else if rbuff.getD 0 0 = 0x00 then some Error.resetShortCircuit
  else if 0x10 ≤ rbuff.getD 0 0 ∧ rbuff.getD 0 0 ≤ 0xe0 then none
  else some (Error.resetPresence (rbuff.getD 0 0))

/-- Source: `func (u *USBtemp) reset() error`.  The results of `Drain`, `Write` and
`Read` are dropped, as in the source. -/
def reset (P : Port σ) (u : USBtemp σ) : USBtemp σ × Option Error :=
  let r1 := portSetMode P mode9600 u
  match r1.2 with
  | some err => (r1.1, some (Error.resetSetMode err))
  | none =>
    let wbuff : List Byte := [0xf0]
    let rbuff : List Byte := [0x00]
    let u2 := (portDrain P r1.1).1
    let u3 := (portWrite P wbuff u2).1
    let r4 := portRead P rbuff.length u3
    let rbuff := fillBuffer rbuff r4.2.1
    let r5 := portSetMode P mode115200 r4.1
    match r5.2 with
    | some err => (r5.1, some (Error.resetSetMode err))
    | none => (r5.1, resetClassify rbuff)

/-! ## `writeByte`, `write`, `readBytes` -/

/-- The first loop of `writeByte`: `i` more rounds of appending the marker of
the low bit of `b` to `w` and shifting `b` right. -/
def encodeLoop : Nat → Byte → List Byte → List Byte
  | 0, _, w => w
  | i + 1, b, w =>
    encodeLoop i (b >>> 1) (if (b &&& 0x01) ≠ 0 then w ++ [0xff] else w ++ [0x00])

/-- The `for readBytes < 8` loop of `writeByte`, with at most `fuel` calls of
`Read`; the buffer `temprbuff` has 8 bytes. -/
def readLoop (P : Port σ) : Nat → USBtemp σ → Nat → List Byte →
    Option (USBtemp σ × (List Byte × Option Error))
  | 0, u, readBytes, rbuff =>
    if readBytes < 8 then none else some (u, (rbuff, none))
  | fuel + 1, u, readBytes, rbuff =>
    if readBytes < 8 then
      let r := portRead P 8 u
      match r.2.2 with
      | some err => some (r.1, (rbuff, some (Error.writeByteFailed err)))
      | none => readLoop P fuel r.1 (readBytes + r.2.1.length) (rbuff ++ r.2.1)
    else some (u, (rbuff, none))

/-- The last loop of `writeByte`: `value = value >> 1`, then `value | 0x80`
when the received byte is `0xff`. -/
def decodeLoop : List Byte → Nat → Nat
  | [], value => value
  | b :: rest, value =>
    decodeLoop rest (if b = 0xff then (value >>> 1) ||| 0x80 else value >>> 1)

/-- Source: `func (u *USBtemp) writeByte(b byte) (byte, error)` -/
def writeByte (P : Port σ) (fuel : Nat) (b : Byte) (u : USBtemp σ) :
    Option (USBtemp σ × (Byte × Option Error)) :=
  let w := encodeLoop 8 b []
  let r := portWrite P w u
  match r.2.2 with
  | some err => some (r.1, (0x00, some (Error.writeByteFailed err)))
  | none =>
    if r.2.1 ≠ w.length then some (r.1, (0x00, some Error.writeByteCount))
    else
      match readLoop P fuel r.1 0 [] with
      | none => none
      | some (u2, (_, some err)) => some (u2, (0x00, some err))
      | some (u2, (rbuff, none)) =>
        some (u2, (Fin.ofNat (decodeLoop rbuff 0), none))

/-- Source: `func (u *USBtemp) write (b byte) error` -/
def write (P : Port σ) (fuel : Nat) (b : Byte) (u : USBtemp σ) :
    Option (USBtemp σ × Option Error) :=
  match writeByte P fuel b u with
  | none => none
  | some (u2, (_, some err)) => some (u2, some (Error.writeFailed err))
  | some (u2, (bb, none)) =>
    if bb ≠ b then some (u2, some Error.writeMismatch) else some (u2, none)

/-- The loop of `readBytes`: `i` more rounds, `x` collected so far. -/
def readBytesLoop (P : Port σ) (fuel : Nat) : Nat → USBtemp σ → List Byte →
    Option (USBtemp σ × (List Byte × Option Error))
  | 0, u, x => some (u, (x, none))
  | i + 1, u, x =>
    match writeByte P fuel 0xff u with
    | none => none
    | some (u2, (_, some err)) => some (u2, ([], some (Error.readBytesFailed err)))
    | some (u2, (curByte, none)) => readBytesLoop P fuel i u2 (x ++ [curByte])

/-- Source: `func (u *USBtemp) readBytes(numBytes int) ([]byte, error)` -/
def readBytes (P : Port σ) (fuel : Nat) (numBytes : Nat) (u : USBtemp σ) :
    Option (USBtemp σ × (List Byte × Option Error)) :=
  readBytesLoop P fuel numBytes u []

/-! ## `crc8` -/

/-- The inner loop of `crc8`: `i` more shift steps on the pair `(crc, b)`. -/
def crc8Bits : Nat → Byte → Byte → Byte
  | 0, crc, _ => crc
  | i + 1, crc, b =>
    let mix := (crc ^^^ b) &&& 0x01
    let crc := crc >>> 1
    crc8Bits i (if mix = 1 then crc ^^^ 0x8c else crc) (b >>> 1)

/-- The outer loop of `crc8` over the bytes of `needCheck[0:8]`. -/
def crc8Loop : List Byte → Byte → Byte
  | [], crc => crc
  | b :: rest, crc => crc8Loop rest (crc8Bits 8 crc b)

/-- Source: `func (u *USBtemp) crc8(needCheck [8]byte) byte`.  The Go parameter is an
array of 8 bytes; the statements below apply `crc8` to lists of length 8. -/
def crc8 (needCheck : List Byte) : Byte :=
  crc8Loop (needCheck.take 8) 0x00

/-! ## `float32` -/

/-- Rounding of a rational to the nearest integer, a tie going to the even one. -/
def roundHalfEven (r : ℚ) : ℤ :=
  let f := ⌊r⌋
  if r - f < 1 / 2 then f
  else if 1 / 2 < r - f then f + 1
  else if f % 2 = 0 then f
  else f + 1

/-- The spacing of the `float32` values around `q`: `2 ^ (e - 23)` with `e` the
binary exponent of `q`, and at least that of the smallest normal number
(24 bits of precision, smallest exponent `-126`). -/
def f32ulp (q : ℚ) : ℚ :=
  (2 : ℚ) ^ (max (Int.log 2 |q|) (-126) - 23)

/-- The `float32` nearest to the rational `q` (IEEE 754 binary32, round to
nearest, ties to even), as a rational.  Overflow to infinity (`|q|` of `2 ^ 128`
and more) is left out: the values of this package stay below `2 ^ 36`. -/
def f32round (q : ℚ) : ℚ :=
  if q = 0 then 0 else roundHalfEven (q / f32ulp q) * f32ulp q

/-- The conversion `float32(n)` of a `uint32`. -/
def f32ofUint32 (n : Nat) : ℚ := f32round (n : ℚ)

/-- The product of two `float32` values. -/
def f32mul (a b : ℚ) : ℚ := f32round (a * b)

/-- The quotient of two `float32` values (`b` is never zero in this package). -/
def f32div (a b : ℚ) : ℚ := f32round (a / b)

/-- The sum of two `float32` values. -/
def f32add (a b : ℚ) : ℚ := f32round (a + b)

/-! ## Library functions used by the commands -/

/-- Library function `binary.LittleEndian.Uint32(b)`:
`uint32(b[0]) | uint32(b[1])<<8 | uint32(b[2])<<16 | uint32(b[3])<<24`. -/
def littleEndianUint32 (b : List Byte) : Nat :=
  ((b.getD 0 0).val ||| ((b.getD 1 0).val <<< 8) ||| ((b.getD 2 0).val <<< 16)
    ||| ((b.getD 3 0).val <<< 24)) % 2 ^ 32

/-- The constant `hextable = "0123456789abcdef"` of `encoding/hex`. -/
def hextable : List Char :=
  ['0', '1', '2', '3', '4', '5', '6', '7', '8', '9', 'a', 'b', 'c', 'd', 'e', 'f']

/-- Library function `hex.EncodeToString(src)`: for every byte `v`, the characters
`hextable[v>>4]` and `hextable[v&0x0f]`. -/
def hexEncodeToString (src : List Byte) : String :=
  String.mk (src.flatMap fun v =>
    [hextable.getD (v >>> 4).val '0', hextable.getD (v &&& 0x0f).val '0'])

/-- Function `fromHexChar` of `encoding/hex`: the value of a hexadecimal digit. -/
def fromHexChar (c : Char) : Option Nat :=
  if '0' ≤ c ∧ c ≤ '9' then some (c.toNat - '0'.toNat)
  else if 'a' ≤ c ∧ c ≤ 'f' then some (c.toNat - 'a'.toNat + 10)
  else if 'A' ≤ c ∧ c ≤ 'F' then some (c.toNat - 'A'.toNat + 10)
  else none

/-- The decoding loop of `hex.DecodeString` on the characters of the string:
two digits give one byte, anything else is an error (`none`). -/
def hexDecodeChars : List Char → Option (List Byte)
  | [] => some []
  | [_] => none
  | c1 :: c2 :: rest =>
    match fromHexChar c1, fromHexChar c2, hexDecodeChars rest with
    | some a, some b, some bytes => some (Fin.ofNat ((a <<< 4) ||| b) :: bytes)
    | _, _, _ => none

/-- Library function `hex.DecodeString(s)`. -/
def hexDecodeString (s : String) : Option (List Byte) :=
  hexDecodeChars s.data

/-! ## The commands -/

/-- The loop `for i := 2; i < 9; i++ { tempBytes[i] = 0 }`, from index `i`
for `n` rounds. -/
def zeroLoop : Nat → Nat → List Byte → List Byte
  | 0, _, tempBytes => tempBytes
  | n + 1, i, tempBytes => zeroLoop n (i + 1) (tempBytes.set i 0)

/-- Lines 94-101 of `Temperature`: the value computed from a scratchpad that
passed the check. -/
def decodeTemperature (fahrenheit : Bool) (tempBytes : List Byte) : ℚ :=
  let tempBytes := zeroLoop 7 2 tempBytes
  let celsius := f32div (f32ofUint32 (littleEndianUint32 tempBytes)) 16
  if fahrenheit then f32add (f32div (f32mul 9 celsius) 5) 32 else celsius

/-- Source: `func (u *USBtemp) Temperature(fahrenheit bool) (float32, error)` -/
def Temperature (P : Port σ) (fuel : Nat) (fahrenheit : Bool) (u : USBtemp σ) :
    Option (USBtemp σ × (ℚ × Option Error)) :=
  match reset P u with
  | (u1, some err) => some (u1, (0, some err))
  | (u1, none) =>
  match write P fuel 0xcc u1 with
  | none => none
  | some (u2, some err) => some (u2, (0, some err))
  | some (u2, none) =>
  match write P fuel 0x44 u2 with
  | none => none
  | some (u3, some err) => some (u3, (0, some err))
  | some (u3, none) =>
  match reset P (sleepSecond u3) with
  | (u4, some err) => some (u4, (0, some err))
  | (u4, none) =>
  match write P fuel 0xcc u4 with
  | none => none
  | some (u5, some err) => some (u5, (0, some err))
  | some (u5, none) =>
  match write P fuel 0xbe u5 with
  | none => none
  | some (u6, some err) => some (u6, (0, some err))
  | some (u6, none) =>
  match readBytes P fuel 9 u6 with
  | none => none
  | some (u7, (_, some err)) => some (u7, (0, some err))
  | some (u7, (tempBytes, none)) =>
    if crc8 (tempBytes.take 8) ≠ tempBytes.getD 8 0 then
      some (u7, (0, some Error.crcValidation))
    else some (u7, (decodeTemperature fahrenheit tempBytes, none))

/-- Source: `func (u *USBtemp) Rom() (string, error)` -/
def Rom (P : Port σ) (fuel : Nat) (u : USBtemp σ) :
    Option (USBtemp σ × (String × Option Error)) :=
  match reset P u with
  | (u1, some err) => some (u1, ("", some err))
  | (u1, none) =>
  match write P fuel 0x33 u1 with
  | none => none
  | some (u2, some err) => some (u2, ("", some err))
  | some (u2, none) =>
  match readBytes P fuel 8 u2 with
  | none => none
  | some (u3, (_, some err)) => some (u3, ("", some (Error.romReadFailed err)))
  | some (u3, (data, none)) => some (u3, (hexEncodeToString data, none))

/-! ## Two simulated ports -/

/-- A port that replays a recorded input: its state is the list of bytes still
to be received; `Read` hands out as many of them as the buffer takes, every
other call succeeds and changes nothing. -/
def replayPort : Port (List Byte) where
  SetMode := fun _ s => (none, s)
  Drain := fun s => (none, s)
  Write := fun p s => ((p.length, none), s)
  Read := fun len s => ((s.take len, none), s.drop len)
  Read_le := fun len s => by simp [List.length_take]

/-- A loop-back port: its state is the queue of bytes written and not yet read;
`Write` appends to it, `Read` takes at most `chunk` bytes from its front (and
no more than the buffer holds). -/
def loopbackPort (chunk : Nat) : Port (List Byte) where
  SetMode := fun _ s => (none, s)
  Drain := fun s => (none, s)
  Write := fun p s => ((p.length, none), s ++ p)
  Read := fun len s => ((s.take (min len chunk), none), s.drop (min len chunk))
  Read_le := fun len s => by
    simp only [List.length_take]
    omega

/-- A probe on a freshly opened port in state `s`, nothing done yet. -/
def newProbe (s : σ) : USBtemp σ :=
  { Name := "", Id := "", SerialNumber := "", port := s, trace := [] }

/-! ## Runs of `Temperature` -/

/-- The command sequence of `Temperature` up to the check went through: both
resets and the four command writes succeeded, and `readBytes(9)` returned the
scratchpad `s` with no error, leaving the probe in state `u7`. -/
def ScratchpadDelivered (P : Port σ) (fuel : Nat) (u u7 : USBtemp σ) (s : List Byte) : Prop :=
  ∃ u1 u2 u3 u4 u5 u6 : USBtemp σ,
    reset P u = (u1, none) ∧
    write P fuel 0xcc u1 = some (u2, none) ∧
    write P fuel 0x44 u2 = some (u3, none) ∧
    reset P (sleepSecond u3) = (u4, none) ∧
    write P fuel 0xcc u4 = some (u5, none) ∧
    write P fuel 0xbe u5 = some (u6, none) ∧
    readBytes P fuel 9 u6 = some (u7, (s, none))

/-- The bytes a device has to put on the line for the probe to receive the
bytes `bs`: eight markers per byte, least significant bit first. -/
def lineBits (bs : List Byte) : List Byte :=
  bs.flatMap fun b => encodeLoop 8 b []

/-- The input of a whole run of `Temperature` on `replayPort` in which the
device is present (presence byte `0x55`), echoes the commands and answers the
scratchpad `pad`. -/
def temperatureInput (pad : List Byte) : List Byte :=
  [0x55] ++ lineBits [0xcc, 0x44] ++ [0x55] ++ lineBits [0xcc, 0xbe] ++ lineBits pad

/-- The first eight scratchpad bytes of the example of the specification. -/
def examplePad8 : List Byte := [0x90, 0x01, 0x4B, 0x46, 0x7F, 0xFF, 0x0C, 0x10]

/-- The scratchpad of the example: the eight bytes and their `crc8`. -/
def examplePad : List Byte := examplePad8 ++ [crc8 examplePad8]

/-! ## What a run sends -/

/-- What the probe does towards the device: the data handed to one `Write`
call, or the one-second wait. -/
inductive Output where
  | bytes (p : List Byte)
  | wait
  deriving DecidableEq, Repr

/-- The `Write` calls and waits of a trace, oldest first.  The data counts as
handed to the port whatever the `Write` returned. -/
def outputs : List Event → List Output
  | [] => []
  | Event.Write p _ _ :: t => Output.bytes p :: outputs t
  | Event.Sleep _ :: t => Output.wait :: outputs t
  | Event.SetMode _ _ :: t => outputs t
  | Event.Drain _ :: t => outputs t
  | Event.Read _ _ _ :: t => outputs t

/-- The bytes handed to the `Write` calls of a trace, in order. -/
def bytesWritten : List Event → List Byte
  | [] => []
  | Event.Write p _ _ :: t => p ++ bytesWritten t
  | _ :: t => bytesWritten t

/-! ## The checksum as the specification words it -/

/-- One shift iteration of specification §4.5: when the low bit of the CRC
XOR the current input bit is set, the CRC is shifted right and XORed with the
feedback constant `0x8C`; otherwise it is just shifted right. -/
def specCrc8Shift (crc input : Nat) : Nat :=
  if (crc % 2 + input % 2) % 2 = 1 then (crc / 2) ^^^ 0x8C else crc / 2

/-- The shift iterations of specification §4.5 for one input byte: after each
one the input byte is shifted right. -/
def specCrc8Byte : Nat → Nat → Nat → Nat
  | 0, crc, _ => crc
  | n + 1, crc, input => specCrc8Byte n (specCrc8Shift crc input) (input / 2)

/-- The Dallas/Maxim 1-Wire CRC8 in the words of specification §4.5: seed
`0x00`, and for each input byte eight shift iterations, low bit first. -/
def specCrc8 (bytes : List Byte) : Nat :=
  bytes.foldl (fun crc b => specCrc8Byte 8 crc b.val) 0x00

/-! ## The checksum as a polynomial remainder -/

/-- The bits of a byte, least significant first. -/
def lsbFirstBits (b : Byte) : List Bool :=
  (List.range 8).map fun i => b.val.testBit i

/-- The generator `x^8 + x^5 + x^4 + 1` of CRC-8/MAXIM, over the field with two
elements. -/
noncomputable def maximPolynomial : Polynomial (ZMod 2) :=
  Polynomial.X ^ 8 + Polynomial.X ^ 5 + Polynomial.X ^ 4 + 1

/-- The polynomial whose coefficients are the given bits, the first bit being
the coefficient of the highest power. -/
noncomputable def bitPolynomial (bits : List Bool) : Polynomial (ZMod 2) :=
  bits.foldl (fun p bit => p * Polynomial.X + (if bit then 1 else 0)) 0

/-- CRC-8/MAXIM of a message: the bytes are taken in order, each with its least
significant bit first (reflected input); the CRC is the remainder of the
message polynomial times `x^8` by the generator, with no final XOR. -/
noncomputable def maximRemainder (d : List Byte) : Polynomial (ZMod 2) :=
  Polynomial.modByMonic (bitPolynomial (d.flatMap lsbFirstBits) * Polynomial.X ^ 8)
    maximPolynomial

/-- One shift step of the CRC register on the input bit `m`: the loop body of
`crc8` with the low bit of the input byte made explicit. -/
def crcStep (crc : Byte) (m : Bool) : Byte :=
  if (crc.val.testBit 0 != m) then (crc >>> 1) ^^^ 0x8c else crc >>> 1

/-- The register before a shift step on the bit `m` that left `r`: the top bit
of `r` tells whether the feedback constant was applied. -/
def crcUnstep (r : Byte) (m : Bool) : Byte :=
  if r.val.testBit 7 then Fin.ofNat ((((r ^^^ 0x8c).val <<< 1) % 256) ||| (if m then 0 else 1))
  else Fin.ofNat (((r.val <<< 1) % 256) ||| (if m then 1 else 0))

/-- A scratchpad with the register bytes `0xF8, 0xFF` (the reading `-0.5` of a
DS18B20) and its `crc8`. -/
def subZeroPad : List Byte :=
  [0xF8, 0xFF, 0x4B, 0x46, 0x7F, 0xFF, 0x0C, 0x10] ++
    [crc8 [0xF8, 0xFF, 0x4B, 0x46, 0x7F, 0xFF, 0x0C, 0x10]]

/-- The last loop of `writeByte` on the outcomes of the comparisons
`b == 0xff` instead of the bytes. -/
def decodeBits : List Bool → Nat → Nat
  | [], value => value
  | bit :: rest, value =>
    decodeBits rest (if bit then (value >>> 1) ||| 0x80 else value >>> 1)

/-- The number of `Read` calls in a trace. -/
def readCount : List Event → Nat
  | [] => 0
  | Event.Read _ _ _ :: t => readCount t + 1
  | _ :: t => readCount t

/-- A port on which every `Read` returns no byte and no error; everything else
succeeds. -/
def stallPort : Port Unit where
  SetMode := fun _ s => (none, s)
  Drain := fun s => (none, s)
  Write := fun p s => ((p.length, none), s)
  Read := fun _ s => (([], none), s)
  Read_le := fun _ _ => Nat.zero_le _

/-- A port that replays a recorded input and reports an error once the input
is used up: `Read` hands out as many of the pending bytes as the buffer takes,
and fails with no byte when none is pending. -/
def eofPort : Port (List Byte) where
  SetMode := fun _ s => (none, s)
  Drain := fun s => (none, s)
  Write := fun p s => ((p.length, none), s)
  Read := fun len s =>
    if s = [] then (([], some (Error.transport 0)), s) else ((s.take len, none), s.drop len)
  Read_le := fun len s => by
    by_cases h : s = []
    · simp [h]
    · simp [h, List.length_take]

/-! ## The mode in force -/

/-- The mode of the port after the events `evs`, when it was `m` before them:
the mode of the last `SetMode` that succeeded.  `none` stands for a mode that
is not known: before the first `SetMode`, or after one that failed. -/
def modeAfter : Option Mode → List Event → Option Mode
  | m, [] => m
  | _, Event.SetMode mode none :: t => modeAfter (some mode) t
  | _, Event.SetMode _ (some _) :: t => modeAfter none t
  | m, Event.Drain _ :: t => modeAfter m t
  | m, Event.Write _ _ _ :: t => modeAfter m t
  | m, Event.Read _ _ _ :: t => modeAfter m t
  | m, Event.Sleep _ :: t => modeAfter m t

/-- The `Write` and `Read` calls among the events `evs`, each with the mode in
force when it was made, `m` being the mode before `evs`. -/
def transfers : Option Mode → List Event → List (Option Mode × Event)
  | _, [] => []
  | _, Event.SetMode mode none :: t => transfers (some mode) t
  | _, Event.SetMode _ (some _) :: t => transfers none t
  | m, Event.Drain _ :: t => transfers m t
  | m, Event.Write p n err :: t => (m, Event.Write p n err) :: transfers m t
  | m, Event.Read len data err :: t => (m, Event.Read len data err) :: transfers m t
  | m, Event.Sleep _ :: t => transfers m t

/-- Every `Write` among the events `evs` is either the reset marker, written at
9600 baud, or the eight markers of some byte, written at 115200 baud. -/
def DataSlotsFast (m : Option Mode) (evs : List Event) : Prop :=
  ∀ (mode : Option Mode) (p : List Byte) (n : Nat) (err : Option Error),
    (mode, Event.Write p n err) ∈ transfers m evs →
      (p = [0xf0] ∧ mode = some mode9600) ∨
      (mode = some mode115200 ∧ ∃ b : Byte, p = encodeLoop 8 b [])

/-- The trace of `u2` extends the trace of `u` by events that keep the data
slots at 115200 baud and take the mode from `m0` to `m1`. -/
def Extends (m0 : Option Mode) (u u2 : USBtemp σ) (m1 : Option Mode) : Prop :=
  ∃ evs : List Event,
    u2.trace = u.trace ++ evs ∧ DataSlotsFast m0 evs ∧ modeAfter m0 evs = m1

/-- Every `Write` among the events `evs` is either the reset marker, written
while the port is at 9600 baud, or the eight markers of some byte, written
while the port is at 115200 baud; `m` is the mode before `evs`. -/
def SlotBauds (m : Option Mode) (evs : List Event) : Prop :=
  ∀ (mode : Option Mode) (p : List Byte) (n : Nat) (err : Option Error),
    (mode, Event.Write p n err) ∈ transfers m evs →
      (p = [0xf0] ∧ mode.map Mode.BaudRate = some 9600) ∨
      (mode.map Mode.BaudRate = some 115200 ∧ ∃ b : Byte, p = encodeLoop 8 b [])

/-! ## Ports that misbehave, and `Open` -/

/-- A replay port on which the `Write` of the reset marker fails (no byte
written, an error returned) while everything else works: `Read` hands out the
recorded input, the other calls succeed. -/
def markerFailPort : Port (List Byte) where
  SetMode := fun _ s => (none, s)
  Drain := fun s => (none, s)
  Write := fun p s =>
    if p = [0xf0] then ((0, some (Error.transport 5)), s) else ((p.length, none), s)
  Read := fun len s => ((s.take len, none), s.drop len)
  Read_le := fun len s => by simp [List.length_take]

/-- The number of bytes that the `Read` calls of a trace delivered. -/
def bytesRead : List Event → Nat
  | [] => 0
  | Event.Read _ data _ :: t => data.length + bytesRead t
  | _ :: t => bytesRead t

/-- The fields of `enumerator.PortDetails` that `Open` looks at. -/
structure PortDetails where
  Name : String
  IsUSB : Bool
  VID : String
  PID : String
  SerialNumber : String
  deriving DecidableEq, Repr

/-- The `error` values made by `Open`. -/
inductive OpenError where
  /-- Message `"enumerating error: %w"` -/
  | enumerating (cause : Error)
  /-- Message `"no valid ports found"` -/
  | noPorts
  /-- Message `"%s is not USB"` with the port name -/
  | notUSB (portName : String)
  /-- Message `"failed to open port: %w"` -/
  | openFailed (cause : Error)
  deriving DecidableEq, Repr

/-- How a call ends: it returns a value, or the Go runtime stops it with a
panic for the dereference of a nil pointer. -/
inductive Outcome (α : Type) where
  | returned (value : α)
  | nilDereference
  deriving DecidableEq, Repr

/-- The loop `for _, port := range ports` of `Open`: the last port whose name
is `portName` ends up in `curPort`, which starts as nil (`none`). -/
def openLoop {τ : Type} : List PortDetails → String → Option PortDetails →
    USBtemp (Option τ) → Option PortDetails × USBtemp (Option τ)
  | [], _, curPort, u => (curPort, u)
  | port :: rest, portName, curPort, u =>
    if port.Name = portName then
      openLoop rest portName (some port) { u with Name := port.Name }
    else openLoop rest portName curPort u

/-- Source: `func (u *USBtemp) Open(portName string) error`.  The two calls
into the serial library are parameters: `enumerated` is what
`enumerator.GetDetailedPortsList()` returns and `serialOpen` is `serial.Open`.
The port of the probe is nil (`none`) until `Open` sets it. -/
def Open {τ : Type} (enumerated : List PortDetails × Option Error)
    (serialOpen : String → Mode → Except Error τ) (portName : String)
    (u : USBtemp (Option τ)) : Outcome (USBtemp (Option τ) × Option OpenError) :=
  match enumerated.2 with
  | some err => Outcome.returned (u, some (OpenError.enumerating err))
  | none =>
    if enumerated.1.length = 0 then Outcome.returned (u, some OpenError.noPorts)
    else
      match openLoop enumerated.1 portName none u with
      | (none, _) => Outcome.nilDereference
      | (some curPort, u1) =>
        if ¬ curPort.IsUSB then Outcome.returned (u1, some (OpenError.notUSB portName))
        else
          let u2 := { u1 with Id := curPort.VID ++ ":" ++ curPort.PID }
          let u3 := { u2 with SerialNumber := curPort.SerialNumber }
          match serialOpen portName mode9600 with
          | Except.error err => Outcome.returned (u3, some (OpenError.openFailed err))
          | Except.ok port => Outcome.returned ({ u3 with port := some port }, none)

/-- A probe before `Open`: no identity and a nil port. -/
def closedProbe {τ : Type} : USBtemp (Option τ) :=
  { Name := "", Id := "", SerialNumber := "", port := none, trace := [] }

/-! # Theorems -/

/-! ## `float32` values -/

theorem roundHalfEven_intCast (n : ℤ) : roundHalfEven (n : ℚ) = n := by
  unfold roundHalfEven
  simp

/-- A rational `m * 2 ^ k` with `|m| < 2 ^ 24` and `k ≥ -149` is a `float32`
value: rounding leaves it unchanged. -/
theorem f32round_dyadic (m k : ℤ) (hm : |m| < 2 ^ 24) (hk : -149 ≤ k) :
    f32round ((m : ℚ) * (2 : ℚ) ^ k) = (m : ℚ) * (2 : ℚ) ^ k := by
  unfold f32round
  split_ifs with h0
  · exact h0.symm
  · have h2k : (0 : ℚ) < (2 : ℚ) ^ k := zpow_pos (by norm_num) k
    have hm0 : (m : ℚ) ≠ 0 := fun h => h0 (by rw [h, zero_mul])
    have hq : (0 : ℚ) < |(m : ℚ) * (2 : ℚ) ^ k| := abs_pos.mpr h0
    have hlog := Int.zpow_log_le_self (b := 2) (by norm_num) hq
    have hmq : |(m : ℚ)| < (2 : ℚ) ^ (24 : ℤ) := by
      have : ((|m| : ℤ) : ℚ) < ((2 ^ 24 : ℤ) : ℚ) := by exact_mod_cast hm
      rw [Int.cast_abs] at this
      calc |(m : ℚ)| < ((2 ^ 24 : ℤ) : ℚ) := this
        _ = (2 : ℚ) ^ (24 : ℤ) := by norm_num
    have hlt : ((2 : ℕ) : ℚ) ^ Int.log 2 |(m : ℚ) * (2 : ℚ) ^ k| < (2 : ℚ) ^ (24 + k) := by
      calc ((2 : ℕ) : ℚ) ^ Int.log 2 |(m : ℚ) * (2 : ℚ) ^ k|
          ≤ |(m : ℚ) * (2 : ℚ) ^ k| := hlog
        _ = |(m : ℚ)| * (2 : ℚ) ^ k := by rw [abs_mul, abs_of_pos h2k]
        _ < (2 : ℚ) ^ (24 : ℤ) * (2 : ℚ) ^ k := by
            exact mul_lt_mul_of_pos_right hmq h2k
        _ = (2 : ℚ) ^ (24 + k) := by rw [← zpow_add₀ (by norm_num : (2 : ℚ) ≠ 0)]
    have he : Int.log 2 |(m : ℚ) * (2 : ℚ) ^ k| < 24 + k := by
      have h := hlt
      simp only [Nat.cast_ofNat] at h
      exact (zpow_lt_zpow_iff_right₀ (by norm_num : (1 : ℚ) < 2)).mp h
    obtain ⟨j, hj⟩ : ∃ j : ℕ, k = (max (Int.log 2 |(m : ℚ) * (2 : ℚ) ^ k|) (-126) - 23) + j := by
      refine ⟨(k - (max (Int.log 2 |(m : ℚ) * (2 : ℚ) ^ k|) (-126) - 23)).toNat, ?_⟩
      rw [Int.toNat_of_nonneg]
      · ring
      · have := max_le (show Int.log 2 |(m : ℚ) * (2 : ℚ) ^ k| ≤ k + 23 by omega)
          (show (-126 : ℤ) ≤ k + 23 by omega)
        omega
    unfold f32ulp
    set e := max (Int.log 2 |(m : ℚ) * (2 : ℚ) ^ k|) (-126) - 23 with he_def
    have hpe : (0 : ℚ) < (2 : ℚ) ^ e := zpow_pos (by norm_num) e
    have hsplit : (2 : ℚ) ^ k = (2 : ℚ) ^ e * (2 : ℚ) ^ j := by
      rw [hj, zpow_add₀ (by norm_num : (2 : ℚ) ≠ 0), zpow_natCast]
    have hdiv : (m : ℚ) * (2 : ℚ) ^ k / (2 : ℚ) ^ e = ((m * 2 ^ j : ℤ) : ℚ) := by
      rw [hsplit]
      push_cast
      field_simp
      ring
    rw [hdiv, roundHalfEven_intCast, hsplit]
    push_cast
    ring

/-! ## The decoding of the scratchpad -/

theorem readBytesLoop_length (P : Port σ) (fuel : Nat) :
    ∀ (n : Nat) (u u2 : USBtemp σ) (x data : List Byte),
      readBytesLoop P fuel n u x = some (u2, (data, none)) → data.length = x.length + n := by
  intro n
  induction n with
  | zero =>
    intro u u2 x data h
    simp only [readBytesLoop, Option.some.injEq, Prod.mk.injEq] at h
    rw [← h.2.1]; rfl
  | succ n ih =>
    intro u u2 x data h
    rw [readBytesLoop] at h
    split at h
    · exact absurd h (by simp)
    · simp at h
    · have := ih _ _ _ _ h
      rw [this, List.length_append, List.length_singleton]
      omega

theorem readBytes_length (P : Port σ) (fuel n : Nat) (u u2 : USBtemp σ) (data : List Byte)
    (h : readBytes P fuel n u = some (u2, (data, none))) : data.length = n := by
  have := readBytesLoop_length P fuel n u u2 [] data h
  simpa using this

theorem littleEndianUint32_zeroLoop (s : List Byte) (hs : s.length = 9) :
    littleEndianUint32 (zeroLoop 7 2 s) = (s.getD 0 0).val + 256 * (s.getD 1 0).val := by
  match s, hs with
  | [a, b, _, _, _, _, _, _, _], _ =>
    have ha := a.isLt
    have hb := b.isLt
    simp only [zeroLoop, List.set_cons_succ, List.set_cons_zero, littleEndianUint32,
      List.getD_cons_zero, List.getD_cons_succ, Fin.val_zero, Nat.zero_shiftLeft, Nat.or_zero,
      Nat.shiftLeft_eq, Nat.zero_mul, Nat.zero_or, Nat.mul_comm (b : Nat) (2 ^ 8)]
    rw [Nat.or_comm, ← Nat.mul_add_lt_is_or (by omega) (b : Nat)]
    omega

theorem decodeTemperature_celsius (s : List Byte) (hs : s.length = 9) :
    decodeTemperature false s = (((s.getD 0 0).val + 256 * (s.getD 1 0).val : ℕ) : ℚ) / 16 := by
  have ha := (s.getD 0 0).isLt
  have hb := (s.getD 1 0).isLt
  simp only [decodeTemperature, littleEndianUint32_zeroLoop s hs, f32div, f32ofUint32,
    Bool.false_eq_true, if_false]
  have h1 := f32round_dyadic (((s.getD 0 0).val + 256 * (s.getD 1 0).val : ℕ) : ℤ) 0
    (by rw [abs_of_nonneg (by positivity)]; norm_cast; omega) (by norm_num)
  have h2 := f32round_dyadic (((s.getD 0 0).val + 256 * (s.getD 1 0).val : ℕ) : ℤ) (-4)
    (by rw [abs_of_nonneg (by positivity)]; norm_cast; omega) (by norm_num)
  simp only [zpow_zero, mul_one, Int.cast_natCast] at h1
  rw [h1]
  have h16 : (((s.getD 0 0).val + 256 * (s.getD 1 0).val : ℕ) : ℚ) / 16
      = (((s.getD 0 0).val + 256 * (s.getD 1 0).val : ℕ) : ℚ) * (2 : ℚ) ^ (-4 : ℤ) := by
    norm_num [div_eq_mul_inv]
  rw [h16]
  simpa using h2

theorem Temperature_of_delivered (P : Port σ) (fuel : Nat) (fahrenheit : Bool)
    (u u7 : USBtemp σ) (s : List Byte) (hrun : ScratchpadDelivered P fuel u u7 s) :
    Temperature P fuel fahrenheit u =
      if crc8 (s.take 8) ≠ s.getD 8 0 then some (u7, (0, some Error.crcValidation))
      else some (u7, (decodeTemperature fahrenheit s, none)) := by
  obtain ⟨u1, u2, u3, u4, u5, u6, h1, h2, h3, h4, h5, h6, h7⟩ := hrun
  simp only [Temperature, h1, h2, h3, h4, h5, h6, h7]

theorem delivered_length (P : Port σ) (fuel : Nat) (u u7 : USBtemp σ) (s : List Byte)
    (hrun : ScratchpadDelivered P fuel u u7 s) : s.length = 9 := by
  obtain ⟨u1, u2, u3, u4, u5, u6, h1, h2, h3, h4, h5, h6, h7⟩ := hrun
  exact readBytes_length P fuel 9 u6 u7 s h7

/-! ## C1, C2: the result of `Temperature` on a delivered scratchpad -/

/-- C1: when both resets and the four command writes succeed and `readBytes(9)`
delivers a scratchpad `s` whose ninth byte is `crc8` of the first eight,
`Temperature(false)` returns no error and exactly `(s[0] + 256 * s[1]) / 16`;
on the scratchpad of the example it returns `25`. -/
theorem Temperature_celsius_decode (P : Port σ) (fuel : Nat) (u u7 : USBtemp σ)
    (s : List Byte) (hrun : ScratchpadDelivered P fuel u u7 s)
    (hcrc : crc8 (s.take 8) = s.getD 8 0) :
    Temperature P fuel false u
        = some (u7, ((((s.getD 0 0).val + 256 * (s.getD 1 0).val : ℕ) : ℚ) / 16, none)) ∧
      (s = examplePad → Temperature P fuel false u = some (u7, (25, none))) := by
  have hlen := delivered_length P fuel u u7 s hrun
  have hT := Temperature_of_delivered P fuel false u u7 s hrun
  rw [if_neg (not_not.mpr hcrc), decodeTemperature_celsius s hlen] at hT
  refine ⟨hT, fun hs => ?_⟩
  rw [hT, hs]
  have h0 : (examplePad.getD 0 0).val = 144 := by decide
  have h1 : (examplePad.getD 1 0).val = 1 := by decide
  rw [h0, h1]
  norm_num

/-- The hypotheses of C1 hold on the replayed run of the example, which returns `25`. -/
theorem Temperature_celsius_decode_witness :
    ∃ u7 : USBtemp (List Byte),
      ScratchpadDelivered replayPort 1 (newProbe (temperatureInput examplePad)) u7 examplePad ∧
      crc8 (examplePad.take 8) = examplePad.getD 8 0 ∧
      Temperature replayPort 1 false (newProbe (temperatureInput examplePad))
        = some (u7, (25, none)) := by
  have hrun : ∃ u7 : USBtemp (List Byte),
      ScratchpadDelivered replayPort 1 (newProbe (temperatureInput examplePad)) u7 examplePad :=
    ⟨_, _, _, _, _, _, _, rfl, rfl, rfl, rfl, rfl, rfl, rfl⟩
  obtain ⟨u7, h⟩ := hrun
  exact ⟨u7, h, by decide,
    (Temperature_celsius_decode replayPort 1 _ u7 examplePad h (by decide)).2 rfl⟩

/-- C2: when `readBytes(9)` delivers a scratchpad whose ninth byte differs from
`crc8` of the first eight, `Temperature` returns the value `0` and the CRC
validation error, whatever the `fahrenheit` flag. -/
theorem Temperature_crc_mismatch (P : Port σ) (fuel : Nat) (fahrenheit : Bool)
    (u u7 : USBtemp σ) (s : List Byte) (hrun : ScratchpadDelivered P fuel u u7 s)
    (hcrc : crc8 (s.take 8) ≠ s.getD 8 0) :
    Temperature P fuel fahrenheit u = some (u7, (0, some Error.crcValidation)) := by
  rw [Temperature_of_delivered P fuel fahrenheit u u7 s hrun, if_pos hcrc]

/-- The hypotheses of C2 hold on the replayed run of the example with its check
byte replaced by `0x00`. -/
theorem Temperature_crc_mismatch_witness :
    ∃ u7 : USBtemp (List Byte),
      ScratchpadDelivered replayPort 1 (newProbe (temperatureInput (examplePad8 ++ [0x00])))
        u7 (examplePad8 ++ [0x00]) ∧
      crc8 ((examplePad8 ++ [0x00]).take 8) ≠ (examplePad8 ++ [0x00]).getD 8 0 ∧
      Temperature replayPort 1 true (newProbe (temperatureInput (examplePad8 ++ [0x00])))
        = some (u7, (0, some Error.crcValidation)) := by
  have hrun : ∃ u7 : USBtemp (List Byte),
      ScratchpadDelivered replayPort 1 (newProbe (temperatureInput (examplePad8 ++ [0x00])))
        u7 (examplePad8 ++ [0x00]) :=
    ⟨_, _, _, _, _, _, _, rfl, rfl, rfl, rfl, rfl, rfl, rfl⟩
  obtain ⟨u7, h⟩ := hrun
  exact ⟨u7, h, by decide,
    Temperature_crc_mismatch replayPort 1 true _ u7 (examplePad8 ++ [0x00]) h (by decide)⟩

/-! ## `reset` -/

/-- The trace of `reset` and its result, by the outcome of the two `SetMode` calls. -/
theorem reset_trace (P : Port σ) (u : USBtemp σ) :
    (∃ e, (reset P u).2 = some (Error.resetSetMode e) ∧
        (reset P u).1.trace = u.trace ++ [Event.SetMode mode9600 (some e)]) ∨
    (∃ dErr n wErr data rErr,
        data.length ≤ 1 ∧
        (((∃ e, (reset P u).2 = some (Error.resetSetMode e) ∧
          (reset P u).1.trace = u.trace ++ [Event.SetMode mode9600 none, Event.Drain dErr,
            Event.Write [0xf0] n wErr, Event.Read 1 data rErr,
            Event.SetMode mode115200 (some e)])) ∨
        ((reset P u).2 = resetClassify (fillBuffer [0x00] data) ∧
          (reset P u).1.trace = u.trace ++ [Event.SetMode mode9600 none, Event.Drain dErr,
            Event.Write [0xf0] n wErr, Event.Read 1 data rErr,
            Event.SetMode mode115200 none]))) := by
  simp only [reset, portSetMode, portDrain, portWrite, portRead, List.length_singleton]
  generalize P.SetMode mode9600 u.port = r1
  obtain ⟨e1, s1⟩ := r1
  cases e1 with
  | some e => exact Or.inl ⟨e, rfl, rfl⟩
  | none =>
    right
    simp only
    generalize P.Drain s1 = r2
    obtain ⟨e2, s2⟩ := r2
    generalize P.Write [0xf0] s2 = r3
    obtain ⟨⟨n, e3⟩, s3⟩ := r3
    have hle := P.Read_le 1 s3
    generalize P.Read 1 s3 = r4 at hle ⊢
    obtain ⟨⟨data, e4⟩, s4⟩ := r4
    generalize P.SetMode mode115200 s4 = r5
    obtain ⟨e5, s5⟩ := r5
    refine ⟨e2, n, e3, data, e4, hle, ?_⟩
    cases e5 with
    | some e => exact Or.inl ⟨e, rfl, by simp⟩
    | none => exact Or.inr ⟨rfl, by simp⟩


/-- The classification of a one-byte reply buffer, for each of the 256 bytes. -/
theorem resetClassify_byte (r : Byte) :
    (r = 0xf0 → resetClassify [r] = some Error.resetNoDevice) ∧
    (r = 0x00 → resetClassify [r] = some Error.resetShortCircuit) ∧
    (0x10 ≤ r ∧ r ≤ 0xe0 → resetClassify [r] = none) ∧
    (r ≠ 0xf0 → r ≠ 0x00 → ¬ (0x10 ≤ r ∧ r ≤ 0xe0) →
      resetClassify [r] = some (Error.resetPresence r)) ∧
    (resetClassify [r] = none ↔ 0x10 ≤ r ∧ r ≤ 0xe0) := by
  revert r
  decide

/-- C3: in a run of `reset` in which both `SetMode` calls succeed and the `Read`
after the reset pulse delivers the byte `r`, the result is the no-device error
for `r = 0xF0`, the short-circuit error for `r = 0x00`, success for
`0x10 <= r <= 0xE0` and the presence error carrying `r` for every other `r`;
so `reset` succeeds exactly when `0x10 <= r <= 0xE0`. -/
theorem reset_classification (P : Port σ) (u u2 : USBtemp σ) (err : Option Error) (r : Byte)
    (dErr wErr rErr : Option Error) (n : Nat)
    (hreset : reset P u = (u2, err))
    (htrace : u2.trace = u.trace ++ [Event.SetMode mode9600 none, Event.Drain dErr,
      Event.Write [0xf0] n wErr, Event.Read 1 [r] rErr, Event.SetMode mode115200 none]) :
    (r = 0xf0 → err = some Error.resetNoDevice) ∧
    (r = 0x00 → err = some Error.resetShortCircuit) ∧
    (0x10 ≤ r ∧ r ≤ 0xe0 → err = none) ∧
    (r ≠ 0xf0 → r ≠ 0x00 → ¬ (0x10 ≤ r ∧ r ≤ 0xe0) → err = some (Error.resetPresence r)) ∧
    (err = none ↔ 0x10 ≤ r ∧ r ≤ 0xe0) := by
  have h1 : (reset P u).1 = u2 := by rw [hreset]
  have h2 : (reset P u).2 = err := by rw [hreset]
  rcases reset_trace P u with ⟨e, _, ht⟩ | ⟨d, m, w, data, re, _, ⟨e, _, ht⟩ | ⟨he, ht⟩⟩
  · rw [h1, htrace] at ht
    simpa using List.append_cancel_left ht
  · rw [h1, htrace] at ht
    simpa using List.append_cancel_left ht
  · rw [h1, htrace] at ht
    have hd : [r] = data := by
      have := List.append_cancel_left ht
      simp only [List.cons.injEq, Event.Read.injEq] at this
      exact this.2.2.2.1.2.1
    rw [h2, ← hd] at he
    have hc : fillBuffer [0x00] [r] = [r] := rfl
    rw [hc] at he
    rw [he]
    exact resetClassify_byte r

/-- The hypotheses of C3 hold on the replay port for the presence byte `0x55`,
for which `reset` succeeds,
and for `0x05`, which is a presence error. -/
theorem reset_classification_witness :
    (reset replayPort (newProbe [0x55])).2 = none ∧
      (reset replayPort (newProbe [0x05])).2 = some (Error.resetPresence 0x05) :=
  ⟨(reset_classification replayPort (newProbe [0x55]) (reset replayPort (newProbe [0x55])).1
      (reset replayPort (newProbe [0x55])).2 0x55 none none none 1 rfl rfl).2.2.1 (by decide),
    (reset_classification replayPort (newProbe [0x05]) (reset replayPort (newProbe [0x05])).1
      (reset replayPort (newProbe [0x05])).2 0x05 none none none 1 rfl rfl).2.2.2.1
      (by decide) (by decide) (by decide)⟩

/-! ## What the exchanges send -/

theorem outputs_append (a b : List Event) : outputs (a ++ b) = outputs a ++ outputs b := by
  induction a with
  | nil => rfl
  | cons e a ih => cases e <;> simp [outputs, ih]

theorem bytesWritten_append (a b : List Event) :
    bytesWritten (a ++ b) = bytesWritten a ++ bytesWritten b := by
  induction a with
  | nil => rfl
  | cons e a ih => cases e <;> simp [bytesWritten, ih]

/-- A `reset` that does not fail on its first `SetMode` writes the reset marker
once and nothing else. -/
theorem reset_outputs (P : Port σ) (u u2 : USBtemp σ) (h : reset P u = (u2, none)) :
    outputs u2.trace = outputs u.trace ++ [Output.bytes [0xf0]] ∧
      bytesWritten u2.trace = bytesWritten u.trace ++ [0xf0] := by
  have h1 : (reset P u).1 = u2 := by rw [h]
  have h2 : (reset P u).2 = none := by rw [h]
  rcases reset_trace P u with ⟨e, he, _⟩ | ⟨d, m, w, data, re, _, ⟨e, he, _⟩ | ⟨_, ht⟩⟩
  · rw [h2] at he
    exact absurd he (by simp)
  · rw [h2] at he
    exact absurd he (by simp)
  · rw [h1] at ht
    rw [ht, outputs_append, bytesWritten_append]
    exact ⟨rfl, rfl⟩

/-- The read loop of `writeByte` sends nothing. -/
theorem readLoop_outputs (P : Port σ) :
    ∀ (fuel : Nat) (u u2 : USBtemp σ) (readBytes : Nat) (rbuff : List Byte)
      (res : List Byte × Option Error),
      readLoop P fuel u readBytes rbuff = some (u2, res) →
        outputs u2.trace = outputs u.trace ∧ bytesWritten u2.trace = bytesWritten u.trace := by
  intro fuel
  induction fuel with
  | zero =>
    intro u u2 readBytes rbuff res h
    simp only [readLoop] at h
    split at h
    · exact absurd h (by simp)
    · simp only [Option.some.injEq, Prod.mk.injEq] at h
      rw [← h.1]
      exact ⟨rfl, rfl⟩
  | succ fuel ih =>
    intro u u2 readBytes rbuff res h
    simp only [readLoop] at h
    have hread : outputs (portRead P 8 u).1.trace = outputs u.trace ∧
        bytesWritten (portRead P 8 u).1.trace = bytesWritten u.trace := by
      simp [portRead, outputs_append, bytesWritten_append, outputs, bytesWritten]
    split at h
    · split at h
      · simp only [Option.some.injEq, Prod.mk.injEq] at h
        rw [← h.1]
        exact hread
      · have := ih _ _ _ _ _ h
        exact ⟨this.1.trans hread.1, this.2.trans hread.2⟩
    · simp only [Option.some.injEq, Prod.mk.injEq] at h
      rw [← h.1]
      exact ⟨rfl, rfl⟩

/-- Whatever it returns, `writeByte(b)` hands the eight markers of `b` to one
`Write` and sends nothing else. -/
theorem writeByte_outputs (P : Port σ) (fuel : Nat) (b : Byte) (u u2 : USBtemp σ)
    (res : Byte × Option Error) (h : writeByte P fuel b u = some (u2, res)) :
    outputs u2.trace = outputs u.trace ++ [Output.bytes (encodeLoop 8 b [])] ∧
      bytesWritten u2.trace = bytesWritten u.trace ++ encodeLoop 8 b [] := by
  have hwrite : outputs (portWrite P (encodeLoop 8 b []) u).1.trace
        = outputs u.trace ++ [Output.bytes (encodeLoop 8 b [])] ∧
      bytesWritten (portWrite P (encodeLoop 8 b []) u).1.trace
        = bytesWritten u.trace ++ encodeLoop 8 b [] := by
    simp [portWrite, outputs_append, bytesWritten_append, outputs, bytesWritten]
  simp only [writeByte] at h
  split at h
  · simp only [Option.some.injEq, Prod.mk.injEq] at h
    rw [← h.1]
    exact hwrite
  · split at h
    · simp only [Option.some.injEq, Prod.mk.injEq] at h
      rw [← h.1]
      exact hwrite
    · split at h
      · exact absurd h (by simp)
      · rename_i hloop
        simp only [Option.some.injEq, Prod.mk.injEq] at h
        have := readLoop_outputs P _ _ _ _ _ _ hloop
        rw [← h.1]
        exact ⟨this.1.trans hwrite.1, this.2.trans hwrite.2⟩
      · rename_i hloop
        simp only [Option.some.injEq, Prod.mk.injEq] at h
        have := readLoop_outputs P _ _ _ _ _ _ hloop
        rw [← h.1]
        exact ⟨this.1.trans hwrite.1, this.2.trans hwrite.2⟩

/-- Whatever it returns, `write(b)` sends the eight markers of `b` and nothing else. -/
theorem write_outputs (P : Port σ) (fuel : Nat) (b : Byte) (u u2 : USBtemp σ)
    (res : Option Error) (h : write P fuel b u = some (u2, res)) :
    outputs u2.trace = outputs u.trace ++ [Output.bytes (encodeLoop 8 b [])] ∧
      bytesWritten u2.trace = bytesWritten u.trace ++ encodeLoop 8 b [] := by
  simp only [write] at h
  split at h
  · exact absurd h (by simp)
  · rename_i hwb
    simp only [Option.some.injEq, Prod.mk.injEq] at h
    rw [← h.1]
    exact writeByte_outputs P fuel b u _ _ hwb
  · rename_i hwb
    have := writeByte_outputs P fuel b u _ _ hwb
    split at h <;>
    · simp only [Option.some.injEq, Prod.mk.injEq] at h
      rw [← h.1]
      exact this

/-! ## C4: a wrong echo of the Convert-Temperature command -/

/-- C4: when the first reset and `write(0xCC)` succeed and the eight bytes
received during `write(0x44)` decode to a byte `bb` other than `0x44`,
`Temperature` returns the write-mismatch error in the state `u3` in which that
exchange ended: nothing is done on the port afterwards, and all that was sent
is the reset marker, the markers of `0xCC` and the markers of `0x44`. -/
theorem Temperature_write_mismatch (P : Port σ) (fuel : Nat) (fahrenheit : Bool)
    (u u1 u2 u3 : USBtemp σ) (bb : Byte)
    (hreset : reset P u = (u1, none))
    (hskip : write P fuel 0xcc u1 = some (u2, none))
    (hecho : writeByte P fuel 0x44 u2 = some (u3, (bb, none)))
    (hbb : bb ≠ 0x44) :
    Temperature P fuel fahrenheit u = some (u3, (0, some Error.writeMismatch)) ∧
      outputs u3.trace = outputs u.trace ++
        [Output.bytes [0xf0],
          Output.bytes [0x00, 0x00, 0xff, 0xff, 0x00, 0x00, 0xff, 0xff],
          Output.bytes [0x00, 0x00, 0xff, 0x00, 0x00, 0x00, 0xff, 0x00]] := by
  have hw : write P fuel 0x44 u2 = some (u3, some Error.writeMismatch) := by
    simp only [write, hecho, if_pos hbb]
  refine ⟨by simp only [Temperature, hreset, hskip, hw], ?_⟩
  rw [(writeByte_outputs P fuel 0x44 u2 u3 _ hecho).1, (write_outputs P fuel 0xcc u1 u2 _ hskip).1,
    (reset_outputs P u u1 hreset).1, List.append_assoc, List.append_assoc]
  rfl

/-- The hypotheses of C4 hold on the replay port when the device answers the
markers of `0x45` to the command `0x44`. -/
theorem Temperature_write_mismatch_witness :
    ∃ u1 u2 u3 : USBtemp (List Byte),
      reset replayPort (newProbe ([0x55] ++ lineBits [0xcc, 0x45])) = (u1, none) ∧
      write replayPort 1 0xcc u1 = some (u2, none) ∧
      writeByte replayPort 1 0x44 u2 = some (u3, (0x45, none)) ∧
      Temperature replayPort 1 true (newProbe ([0x55] ++ lineBits [0xcc, 0x45]))
        = some (u3, (0, some Error.writeMismatch)) := by
  have h : ∃ u1 u2 u3 : USBtemp (List Byte),
      reset replayPort (newProbe ([0x55] ++ lineBits [0xcc, 0x45])) = (u1, none) ∧
      write replayPort 1 0xcc u1 = some (u2, none) ∧
      writeByte replayPort 1 0x44 u2 = some (u3, (0x45, none)) :=
    ⟨_, _, _, rfl, rfl, rfl⟩
  obtain ⟨u1, u2, u3, h1, h2, h3⟩ := h
  exact ⟨u1, u2, u3, h1, h2, h3,
    (Temperature_write_mismatch replayPort 1 true _ u1 u2 u3 0x45 h1 h2 h3 (by decide)).1⟩

/-! ## C5: `writeByte` on the loop-back port -/

/-- Decoding the eight markers of a byte gives the byte back. -/
theorem decodeLoop_encodeLoop (b : Byte) :
    (Fin.ofNat (decodeLoop (encodeLoop 8 b []) 0) : Byte) = b := by
  revert b
  decide

theorem encodeLoop_length (b : Byte) : (encodeLoop 8 b []).length = 8 := by
  revert b
  decide

/-- On the loop-back port the read loop collects the whole queue, provided the
queue completes the bytes already received to eight and the fuel covers one
`Read` per missing byte. -/
theorem readLoop_loopback (chunk : Nat) (hchunk : 0 < chunk) :
    ∀ (fuel : Nat) (u : USBtemp (List Byte)) (rbuff : List Byte),
      rbuff.length + u.port.length = 8 → 8 ≤ fuel + rbuff.length →
      ∃ u2 : USBtemp (List Byte),
        readLoop (loopbackPort chunk) fuel u rbuff.length rbuff
          = some (u2, (rbuff ++ u.port, none)) ∧ u2.port = [] := by
  intro fuel
  induction fuel with
  | zero =>
    intro u rbuff hlen hfuel
    have hq : u.port = [] := List.length_eq_zero.mp (by omega)
    refine ⟨u, ?_, hq⟩
    simp only [readLoop, hq, List.append_nil]
    rw [if_neg (by omega)]
  | succ fuel ih =>
    intro u rbuff hlen hfuel
    by_cases hlt : rbuff.length < 8
    · simp only [readLoop, if_pos hlt, portRead, loopbackPort]
      have htake : 0 < (u.port.take (min 8 chunk)).length := by
        rw [List.length_take]
        omega
      have := ih
        { u with
          port := u.port.drop (min 8 chunk)
          trace := u.trace ++ [Event.Read 8 (u.port.take (min 8 chunk)) none] }
        (rbuff ++ u.port.take (min 8 chunk))
        (by simp only [List.length_append, List.length_take, List.length_drop]; omega)
        (by simp only [List.length_append]; omega)
      obtain ⟨u2, h2, hq⟩ := this
      refine ⟨u2, ?_, hq⟩
      simp only [List.length_append, List.append_assoc, List.take_append_drop] at h2
      exact h2
    · have hq : u.port = [] := List.length_eq_zero.mp (by omega)
      refine ⟨u, ?_, hq⟩
      simp only [readLoop, if_neg hlt, hq, List.append_nil]

/-- C5: on a loop-back port, whose reads return the bytes that were written, in
order (in pieces of at most `chunk` bytes), `writeByte(b)` returns `b` and no
error, for each of the 256 bytes `b`. -/
theorem writeByte_loopback (chunk fuel : Nat) (b : Byte) (u : USBtemp (List Byte))
    (hchunk : 0 < chunk) (hfuel : 8 ≤ fuel) (hempty : u.port = []) :
    ∃ u2 : USBtemp (List Byte),
      writeByte (loopbackPort chunk) fuel b u = some (u2, (b, none)) ∧ u2.port = [] := by
  have hloop := readLoop_loopback chunk hchunk fuel
    (portWrite (loopbackPort chunk) (encodeLoop 8 b []) u).1 []
    (by simp [portWrite, loopbackPort, hempty, encodeLoop_length]) (by simpa using hfuel)
  obtain ⟨u2, h2, hq⟩ := hloop
  refine ⟨u2, ?_, hq⟩
  have hport : (portWrite (loopbackPort chunk) (encodeLoop 8 b []) u).1.port
      = encodeLoop 8 b [] := by
    simp [portWrite, loopbackPort, hempty]
  have hres : (portWrite (loopbackPort chunk) (encodeLoop 8 b []) u).2
      = ((encodeLoop 8 b []).length, none) := rfl
  simp only [List.length_nil, List.nil_append, hport] at h2
  simp only [writeByte, hres, h2, ne_eq, not_true_eq_false, if_false, decodeLoop_encodeLoop]

/-- The hypotheses of C5 hold for a loop-back port that hands out three bytes
per `Read`, on which `writeByte(0x5a)` returns `0x5a`. -/
theorem writeByte_loopback_witness :
    ∃ u2 : USBtemp (List Byte),
      writeByte (loopbackPort 3) 8 0x5a (newProbe []) = some (u2, (0x5a, none)) ∧
        u2.port = [] :=
  writeByte_loopback 3 8 0x5a (newProbe []) (by decide) (by decide) rfl

/-! ## C9: `Rom` -/

/-- The two characters written for a byte are digits of `hextable` and decode
to the two halves of the byte. -/
theorem hexByte_digits (v : Byte) :
    hextable.getD (v >>> 4).val '0' ∈ hextable ∧
    hextable.getD (v &&& 0x0f).val '0' ∈ hextable ∧
    fromHexChar (hextable.getD (v >>> 4).val '0') = some (v >>> 4).val ∧
    fromHexChar (hextable.getD (v &&& 0x0f).val '0') = some (v &&& 0x0f).val ∧
    (Fin.ofNat (((v >>> 4).val <<< 4) ||| (v &&& 0x0f).val) : Byte) = v := by
  revert v
  decide

theorem hexEncodeToString_data (src : List Byte) :
    (hexEncodeToString src).data = src.flatMap fun v =>
      [hextable.getD (v >>> 4).val '0', hextable.getD (v &&& 0x0f).val '0'] := rfl

theorem hexEncodeToString_length (src : List Byte) :
    (hexEncodeToString src).length = 2 * src.length := by
  rw [String.length, hexEncodeToString_data]
  induction src with
  | nil => rfl
  | cons v rest ih =>
    simp only [List.flatMap_cons, List.length_append, List.length_cons, List.length_nil, ih]
    omega

theorem hexEncodeToString_lower (src : List Byte) :
    ∀ c ∈ (hexEncodeToString src).data, c ∈ hextable := by
  intro c hc
  rw [hexEncodeToString_data, List.mem_flatMap] at hc
  obtain ⟨v, _, hv⟩ := hc
  have hd := hexByte_digits v
  simp only [List.mem_cons, List.mem_singleton, List.not_mem_nil, or_false] at hv
  rcases hv with h | h
  · rw [h]; exact hd.1
  · rw [h]; exact hd.2.1

theorem hexDecodeString_hexEncodeToString (src : List Byte) :
    hexDecodeString (hexEncodeToString src) = some src := by
  rw [hexDecodeString, hexEncodeToString_data]
  induction src with
  | nil => rfl
  | cons v rest ih =>
    have hd := hexByte_digits v
    show hexDecodeChars (hextable.getD (v >>> 4).val '0' :: hextable.getD (v &&& 0x0f).val '0' ::
      rest.flatMap fun v =>
        [hextable.getD (v >>> 4).val '0', hextable.getD (v &&& 0x0f).val '0']) = some (v :: rest)
    rw [hexDecodeChars, hd.2.2.1, hd.2.2.2.1, ih]
    simp only [hd.2.2.2.2]

/-- C9: when reset succeeds, the command `0x33` is echoed and the eight read
exchanges `writeByte(0xff)` deliver, one after the other, the bytes `r0` to
`r7`, `Rom()` returns no error and the hexadecimal encoding of `r0, ..., r7` in
that order: 16 characters, all of them digits `0-9a-f`, decoding back to
`r0, ..., r7`.  No check byte is looked at. -/
theorem Rom_hex (P : Port σ) (fuel : Nat) (u u1 u2 v1 v2 v3 v4 v5 v6 v7 u3 : USBtemp σ)
    (r0 r1 r2 r3 r4 r5 r6 r7 : Byte)
    (hreset : reset P u = (u1, none))
    (hcmd : write P fuel 0x33 u1 = some (u2, none))
    (h0 : writeByte P fuel 0xff u2 = some (v1, (r0, none)))
    (h1 : writeByte P fuel 0xff v1 = some (v2, (r1, none)))
    (h2 : writeByte P fuel 0xff v2 = some (v3, (r2, none)))
    (h3 : writeByte P fuel 0xff v3 = some (v4, (r3, none)))
    (h4 : writeByte P fuel 0xff v4 = some (v5, (r4, none)))
    (h5 : writeByte P fuel 0xff v5 = some (v6, (r5, none)))
    (h6 : writeByte P fuel 0xff v6 = some (v7, (r6, none)))
    (h7 : writeByte P fuel 0xff v7 = some (u3, (r7, none))) :
    Rom P fuel u = some (u3, (hexEncodeToString [r0, r1, r2, r3, r4, r5, r6, r7], none)) ∧
      (hexEncodeToString [r0, r1, r2, r3, r4, r5, r6, r7]).length = 16 ∧
      (∀ c ∈ (hexEncodeToString [r0, r1, r2, r3, r4, r5, r6, r7]).data, c ∈ hextable) ∧
      hexDecodeString (hexEncodeToString [r0, r1, r2, r3, r4, r5, r6, r7])
        = some [r0, r1, r2, r3, r4, r5, r6, r7] := by
  have hread : readBytes P fuel 8 u2 = some (u3, ([r0, r1, r2, r3, r4, r5, r6, r7], none)) := by
    simp only [readBytes, readBytesLoop, h0, h1, h2, h3, h4, h5, h6, h7, List.nil_append,
      List.cons_append, List.singleton_append]
  refine ⟨by simp only [Rom, hreset, hcmd, hread], ?_, hexEncodeToString_lower _,
    hexDecodeString_hexEncodeToString _⟩
  rw [hexEncodeToString_length]
  rfl

/-- The hypotheses of C9 hold on the replay port for a device that answers
eight bytes whose last one is not the `crc8Loop` of the first seven: `Rom()`
returns their encoding, in the order received, all the same. -/
theorem Rom_hex_witness :
    crc8Loop [0x28, 0x01, 0x02, 0x03, 0x04, 0x05, 0x06] 0x00 ≠ 0xff ∧
    ∃ u3 : USBtemp (List Byte),
      Rom replayPort 1
          (newProbe ([0x55] ++ lineBits [0x33] ++
            lineBits [0x28, 0x01, 0x02, 0x03, 0x04, 0x05, 0x06, 0xff]))
        = some (u3, ("28010203040506ff", none)) := by
  have h : ∃ u1 u2 v1 v2 v3 v4 v5 v6 v7 u3 : USBtemp (List Byte),
      reset replayPort (newProbe ([0x55] ++ lineBits [0x33] ++
        lineBits [0x28, 0x01, 0x02, 0x03, 0x04, 0x05, 0x06, 0xff])) = (u1, none) ∧
      write replayPort 1 0x33 u1 = some (u2, none) ∧
      writeByte replayPort 1 0xff u2 = some (v1, (0x28, none)) ∧
      writeByte replayPort 1 0xff v1 = some (v2, (0x01, none)) ∧
      writeByte replayPort 1 0xff v2 = some (v3, (0x02, none)) ∧
      writeByte replayPort 1 0xff v3 = some (v4, (0x03, none)) ∧
      writeByte replayPort 1 0xff v4 = some (v5, (0x04, none)) ∧
      writeByte replayPort 1 0xff v5 = some (v6, (0x05, none)) ∧
      writeByte replayPort 1 0xff v6 = some (v7, (0x06, none)) ∧
      writeByte replayPort 1 0xff v7 = some (u3, (0xff, none)) :=
    ⟨_, _, _, _, _, _, _, _, _, _, rfl, rfl, rfl, rfl, rfl, rfl, rfl, rfl, rfl, rfl⟩
  obtain ⟨u1, u2, v1, v2, v3, v4, v5, v6, v7, u3, hr, hc, h0, h1, h2, h3, h4, h5, h6, h7⟩ := h
  exact ⟨by decide, u3,
    (Rom_hex replayPort 1 _ u1 u2 v1 v2 v3 v4 v5 v6 v7 u3 _ _ _ _ _ _ _ _
      hr hc h0 h1 h2 h3 h4 h5 h6 h7).1⟩

/-! ## C10: what a complete run of `Temperature` sends -/

/-- A `readBytes` loop of `n` rounds that ends without error sends `n` groups of
eight read-slot fillers. -/
theorem readBytesLoop_outputs (P : Port σ) (fuel : Nat) :
    ∀ (n : Nat) (u u2 : USBtemp σ) (x data : List Byte),
      readBytesLoop P fuel n u x = some (u2, (data, none)) →
        outputs u2.trace
            = outputs u.trace ++ List.replicate n (Output.bytes (List.replicate 8 0xff)) ∧
          bytesWritten u2.trace = bytesWritten u.trace ++ List.replicate (8 * n) 0xff := by
  intro n
  induction n with
  | zero =>
    intro u u2 x data h
    simp only [readBytesLoop, Option.some.injEq, Prod.mk.injEq] at h
    rw [← h.1]
    simp
  | succ n ih =>
    intro u u2 x data h
    rw [readBytesLoop] at h
    split at h
    · exact absurd h (by simp)
    · simp at h
    · rename_i hwb
      have h1 := writeByte_outputs P fuel 0xff u _ _ hwb
      have h2 := ih _ _ _ _ h
      have henc : encodeLoop 8 (0xff : Byte) [] = List.replicate 8 0xff := by decide
      rw [henc] at h1
      rw [h2.1, h2.2, h1.1, h1.2, List.append_assoc, List.append_assoc]
      refine ⟨?_, ?_⟩
      · rw [List.replicate_succ]
        rfl
      · rw [← List.replicate_add]
        congr 2
        omega

/-- C10: in a run of `Temperature` in which no step fails before the check
(`Temperature` then returns in state `u7`, with no error or with the CRC
validation error), what is sent is exactly: the reset marker `0xF0`, the
markers of `0xCC`, the markers of `0x44`, then the wait, the reset marker, the
markers of `0xCC`, the markers of `0xBE`, and nine groups of eight fillers
`0xFF`. -/
theorem Temperature_outputs (P : Port σ) (fuel : Nat) (fahrenheit : Bool)
    (u u7 : USBtemp σ) (s : List Byte) (hrun : ScratchpadDelivered P fuel u u7 s) :
    (∃ v err, Temperature P fuel fahrenheit u = some (u7, (v, err)) ∧
      (err = none ∨ err = some Error.crcValidation)) ∧
    outputs u7.trace = outputs u.trace ++
      [Output.bytes [0xf0],
        Output.bytes [0x00, 0x00, 0xff, 0xff, 0x00, 0x00, 0xff, 0xff],
        Output.bytes [0x00, 0x00, 0xff, 0x00, 0x00, 0x00, 0xff, 0x00],
        Output.wait,
        Output.bytes [0xf0],
        Output.bytes [0x00, 0x00, 0xff, 0xff, 0x00, 0x00, 0xff, 0xff],
        Output.bytes [0x00, 0xff, 0xff, 0xff, 0xff, 0xff, 0x00, 0xff]] ++
      List.replicate 9 (Output.bytes (List.replicate 8 0xff)) ∧
    bytesWritten u7.trace = bytesWritten u.trace ++
      ([0xf0] ++ [0x00, 0x00, 0xff, 0xff, 0x00, 0x00, 0xff, 0xff] ++
        [0x00, 0x00, 0xff, 0x00, 0x00, 0x00, 0xff, 0x00] ++
        [0xf0] ++ [0x00, 0x00, 0xff, 0xff, 0x00, 0x00, 0xff, 0xff] ++
        [0x00, 0xff, 0xff, 0xff, 0xff, 0xff, 0x00, 0xff] ++ List.replicate 72 0xff) := by
  have hT := Temperature_of_delivered P fuel fahrenheit u u7 s hrun
  obtain ⟨u1, u2, u3, u4, u5, u6, h1, h2, h3, h4, h5, h6, h7⟩ := hrun
  have o1 := reset_outputs P u u1 h1
  have o2 := write_outputs P fuel 0xcc u1 u2 _ h2
  have o3 := write_outputs P fuel 0x44 u2 u3 _ h3
  have o4 := reset_outputs P (sleepSecond u3) u4 h4
  have o5 := write_outputs P fuel 0xcc u4 u5 _ h5
  have o6 := write_outputs P fuel 0xbe u5 u6 _ h6
  have o7 := readBytesLoop_outputs P fuel 9 u6 u7 [] s h7
  have os : outputs (sleepSecond u3).trace = outputs u3.trace ++ [Output.wait] ∧
      bytesWritten (sleepSecond u3).trace = bytesWritten u3.trace := by
    simp [sleepSecond, outputs_append, bytesWritten_append, outputs, bytesWritten]
  have ecc : encodeLoop 8 (0xcc : Byte) [] = [0x00, 0x00, 0xff, 0xff, 0x00, 0x00, 0xff, 0xff] := by
    decide
  have e44 : encodeLoop 8 (0x44 : Byte) [] = [0x00, 0x00, 0xff, 0x00, 0x00, 0x00, 0xff, 0x00] := by
    decide
  have ebe : encodeLoop 8 (0xbe : Byte) [] = [0x00, 0xff, 0xff, 0xff, 0xff, 0xff, 0x00, 0xff] := by
    decide
  rw [ecc] at o2 o5
  rw [e44] at o3
  rw [ebe] at o6
  refine ⟨?_, ?_, ?_⟩
  · by_cases hc : crc8 (s.take 8) ≠ s.getD 8 0
    · exact ⟨_, _, by rw [hT, if_pos hc], Or.inr rfl⟩
    · exact ⟨_, _, by rw [hT, if_neg hc], Or.inl rfl⟩
  · rw [o7.1, o6.1, o5.1, o4.1, os.1, o3.1, o2.1, o1.1]
    simp only [List.append_assoc, List.singleton_append, List.cons_append, List.nil_append]
  · rw [o7.2, o6.2, o5.2, o4.2, os.2, o3.2, o2.2, o1.2]
    simp only [List.append_assoc, List.singleton_append, List.cons_append, List.nil_append]

/-- The hypothesis of C10 holds on the replayed run of the example, which ends
with no error. -/
theorem Temperature_outputs_witness :
    ∃ u7 : USBtemp (List Byte),
      ScratchpadDelivered replayPort 1 (newProbe (temperatureInput examplePad)) u7 examplePad ∧
      bytesWritten u7.trace =
        [0xf0] ++ [0x00, 0x00, 0xff, 0xff, 0x00, 0x00, 0xff, 0xff] ++
          [0x00, 0x00, 0xff, 0x00, 0x00, 0x00, 0xff, 0x00] ++
          [0xf0] ++ [0x00, 0x00, 0xff, 0xff, 0x00, 0x00, 0xff, 0xff] ++
          [0x00, 0xff, 0xff, 0xff, 0xff, 0xff, 0x00, 0xff] ++ List.replicate 72 0xff := by
  have hrun : ∃ u7 : USBtemp (List Byte),
      ScratchpadDelivered replayPort 1 (newProbe (temperatureInput examplePad)) u7 examplePad :=
    ⟨_, _, _, _, _, _, _, rfl, rfl, rfl, rfl, rfl, rfl, rfl⟩
  obtain ⟨u7, h⟩ := hrun
  exact ⟨u7, h, (Temperature_outputs replayPort 1 false _ u7 examplePad h).2.2⟩

/-! ## C8: the Fahrenheit value -/

theorem roundHalfEven_abs_sub_le (r : ℚ) : |(roundHalfEven r : ℚ) - r| ≤ 1 / 2 := by
  have h1 : ((⌊r⌋ : ℤ) : ℚ) ≤ r := Int.floor_le r
  have h2 : r < ((⌊r⌋ : ℤ) : ℚ) + 1 := Int.lt_floor_add_one r
  unfold roundHalfEven
  simp only
  split_ifs with ha hb hc
  · rw [abs_le]; constructor <;> linarith
  · push_cast; rw [abs_le]; constructor <;> linarith
  · rw [abs_le]; constructor <;> linarith
  · push_cast; rw [abs_le]; constructor <;> linarith

theorem f32ulp_pos (q : ℚ) : 0 < f32ulp q := zpow_pos (by norm_num) _

/-- Rounding to `float32` moves a value by at most half the spacing. -/
theorem f32round_abs_sub_le (q : ℚ) : |f32round q - q| ≤ f32ulp q / 2 := by
  have hu := f32ulp_pos q
  unfold f32round
  split_ifs with h0
  · rw [h0]; simp only [sub_self, abs_zero]; linarith [f32ulp_pos 0]
  · have h := roundHalfEven_abs_sub_le (q / f32ulp q)
    have heq : (roundHalfEven (q / f32ulp q) : ℚ) * f32ulp q - q
        = ((roundHalfEven (q / f32ulp q) : ℚ) - q / f32ulp q) * f32ulp q := by
      field_simp
    rw [heq, abs_mul, abs_of_pos hu]
    calc |(roundHalfEven (q / f32ulp q) : ℚ) - q / f32ulp q| * f32ulp q
        ≤ 1 / 2 * f32ulp q := mul_le_mul_of_nonneg_right h hu.le
      _ = f32ulp q / 2 := by ring

/-- Below `2 ^ (n + 1)` the spacing of the `float32` values is at most `2 ^ (n - 23)`. -/
theorem f32ulp_le (q : ℚ) (n : ℤ) (hn : 0 ≤ n) (hq : |q| < (2 : ℚ) ^ (n + 1)) :
    f32ulp q ≤ (2 : ℚ) ^ (n - 23) := by
  unfold f32ulp
  apply zpow_le_zpow_right₀ (by norm_num : (1 : ℚ) ≤ 2)
  have hlog : Int.log 2 |q| ≤ n := by
    by_cases h0 : q = 0
    · rw [h0, abs_zero]
      have : Int.log 2 (0 : ℚ) = 0 := Int.log_zero_right 2
      rw [this]
      exact hn
    · have hpos : (0 : ℚ) < |q| := abs_pos.mpr h0
      have := (Int.lt_zpow_iff_log_lt (b := 2) (by norm_num) hpos (x := n + 1)).mp
        (by simpa using hq)
      omega
  have := max_le hlog (show (-126 : ℤ) ≤ n by omega)
  omega


/-- The Fahrenheit value computed from a register value below `2 ^ 16` is
within `2 ^ (-11)` of the exact `c * 9 / 5 + 32`. -/
theorem fahrenheit_error (k : ℕ) (hk : k < 65536) :
    |f32add (f32div (f32mul 9 ((k : ℚ) / 16)) 5) 32 - ((k : ℚ) / 16 * 9 / 5 + 32)|
      ≤ 1 / 2048 := by
  have hk' : (k : ℚ) < 65536 := by exact_mod_cast hk
  have hk0 : (0 : ℚ) ≤ (k : ℚ) := Nat.cast_nonneg k
  have hmul : f32mul 9 ((k : ℚ) / 16) = 9 * ((k : ℚ) / 16) := by
    have h := f32round_dyadic ((9 * k : ℕ) : ℤ) (-4)
      (by rw [abs_of_nonneg (by positivity)]; norm_cast; omega) (by norm_num)
    have he : 9 * ((k : ℚ) / 16) = (((9 * k : ℕ) : ℤ) : ℚ) * (2 : ℚ) ^ (-4 : ℤ) := by
      push_cast
      norm_num [div_eq_mul_inv]
      ring
    rw [f32mul, he]
    exact h
  rw [hmul]
  set x : ℚ := 9 * ((k : ℚ) / 16) / 5 with hx
  have hx0 : 0 ≤ x := by positivity
  have hx1 : x < 7373 := by rw [hx]; linarith
  have hp12 : (2 : ℚ) ^ ((12 : ℤ) - 23) = 1 / 2048 := by norm_num [zpow_neg]
  have hp13 : (2 : ℚ) ^ ((12 : ℤ) + 1) = 8192 := by norm_num
  have e1 : |f32round x - x| ≤ 1 / 4096 := by
    have h := f32round_abs_sub_le x
    have hu := f32ulp_le x 12 (by norm_num) (by rw [hp13, abs_of_nonneg hx0]; linarith)
    rw [hp12] at hu
    linarith
  have hy := abs_le.mp e1
  have e2 : |f32round (f32round x + 32) - (f32round x + 32)| ≤ 1 / 4096 := by
    have h := f32round_abs_sub_le (f32round x + 32)
    have hu := f32ulp_le (f32round x + 32) 12 (by norm_num)
      (by rw [hp13, abs_of_nonneg (by linarith)]; linarith)
    rw [hp12] at hu
    linarith
  have hz := abs_le.mp e2
  have hgoal : (k : ℚ) / 16 * 9 / 5 + 32 = x + 32 := by rw [hx]; ring
  rw [hgoal, f32add, f32div, abs_le]
  constructor <;> linarith


/-- C8: on a delivered scratchpad that passes the check, `Temperature(false)`
returns a Celsius value `c` and `Temperature(true)`, on the same input, returns
the `float32` evaluation of `(9 * c) / 5 + 32`, which is within `2 ^ (-11)` of
the exact `c * 9 / 5 + 32`; on the scratchpad of the example it returns `77`. -/
theorem Temperature_fahrenheit (P : Port σ) (fuel : Nat) (u u7 : USBtemp σ) (s : List Byte)
    (hrun : ScratchpadDelivered P fuel u u7 s) (hcrc : crc8 (s.take 8) = s.getD 8 0) :
    ∃ c : ℚ,
      Temperature P fuel false u = some (u7, (c, none)) ∧
      Temperature P fuel true u = some (u7, (f32add (f32div (f32mul 9 c) 5) 32, none)) ∧
      |f32add (f32div (f32mul 9 c) 5) 32 - (c * 9 / 5 + 32)| ≤ 1 / 2048 ∧
      (s = examplePad → Temperature P fuel true u = some (u7, (77, none))) := by
  have hlen := delivered_length P fuel u u7 s hrun
  have hF := Temperature_of_delivered P fuel false u u7 s hrun
  have hT := Temperature_of_delivered P fuel true u u7 s hrun
  rw [if_neg (not_not.mpr hcrc)] at hF hT
  have hdec : decodeTemperature true s
      = f32add (f32div (f32mul 9 (decodeTemperature false s)) 5) 32 := by
    simp only [decodeTemperature, if_true, Bool.false_eq_true, if_false]
  have hlt : (s.getD 0 0).val + 256 * (s.getD 1 0).val < 65536 := by
    have ha := (s.getD 0 0).isLt
    have hb := (s.getD 1 0).isLt
    omega
  refine ⟨decodeTemperature false s, hF, by rw [hT, hdec], ?_, fun hs => ?_⟩
  · rw [decodeTemperature_celsius s hlen]
    exact fahrenheit_error _ hlt
  · rw [hT, hdec, decodeTemperature_celsius s hlen, hs]
    have h0 : (examplePad.getD 0 0).val = 144 := by decide
    have h1 : (examplePad.getD 1 0).val = 1 := by decide
    rw [h0, h1]
    have r225 := f32round_dyadic 225 0 (by norm_num) (by norm_num)
    have r45 := f32round_dyadic 45 0 (by norm_num) (by norm_num)
    have r77 := f32round_dyadic 77 0 (by norm_num) (by norm_num)
    simp only [zpow_zero, mul_one, Int.cast_ofNat] at r225 r45 r77
    have e1 : f32mul 9 (((144 + 256 * 1 : ℕ) : ℚ) / 16) = 225 := by
      rw [f32mul]
      norm_num
      exact r225
    have e2 : f32div 225 5 = 45 := by
      rw [f32div]
      norm_num
      exact r45
    have e3 : f32add 45 32 = 77 := by
      rw [f32add]
      norm_num
      exact r77
    rw [e1, e2, e3]

/-- The hypotheses of C8 hold on the replayed run of the example, which returns
`77` with the flag set. -/
theorem Temperature_fahrenheit_witness :
    ∃ u7 : USBtemp (List Byte),
      ScratchpadDelivered replayPort 1 (newProbe (temperatureInput examplePad)) u7 examplePad ∧
      crc8 (examplePad.take 8) = examplePad.getD 8 0 ∧
      Temperature replayPort 1 true (newProbe (temperatureInput examplePad))
        = some (u7, (77, none)) := by
  have hrun : ∃ u7 : USBtemp (List Byte),
      ScratchpadDelivered replayPort 1 (newProbe (temperatureInput examplePad)) u7 examplePad :=
    ⟨_, _, _, _, _, _, _, rfl, rfl, rfl, rfl, rfl, rfl, rfl⟩
  obtain ⟨u7, h⟩ := hrun
  obtain ⟨_, _, _, _, h77⟩ :=
    Temperature_fahrenheit replayPort 1 _ u7 examplePad h (by decide)
  exact ⟨u7, h, by decide, h77 rfl⟩

/-! ## C6: `crc8` is the Dallas/Maxim CRC8 -/

theorem byte_xor_val (a b : Byte) : (a ^^^ b).val = a.val ^^^ b.val := by
  obtain ⟨a, ha⟩ := a
  obtain ⟨b, hb⟩ := b
  show (a ^^^ b) % 256 = a ^^^ b
  exact Nat.mod_eq_of_lt (Nat.xor_lt_two_pow (n := 8) ha hb)

theorem byte_shiftRight_one_val (a : Byte) : (a >>> 1).val = a.val / 2 := by
  revert a
  decide

theorem byte_and_one_eq_one (z : Byte) : z &&& 0x01 = 1 ↔ z.val.testBit 0 = true := by
  revert z
  decide

/-- The body of the inner loop of `crc8` is `crcStep` on the low bit of `b`. -/
theorem crc8Bits_succ (i : Nat) (crc b : Byte) :
    crc8Bits (i + 1) crc b = crc8Bits i (crcStep crc (b.val.testBit 0)) (b >>> 1) := by
  have hmix : ((crc ^^^ b) &&& 0x01 = 1) ↔ (crc.val.testBit 0 != b.val.testBit 0) = true := by
    rw [byte_and_one_eq_one, byte_xor_val, Nat.testBit_xor]
  rw [crc8Bits, crcStep]
  by_cases h : (crc ^^^ b) &&& 0x01 = 1
  · simp only [h, if_true, hmix.mp h]
  · have h2 : ¬ ((crc.val.testBit 0 != b.val.testBit 0) = true) := fun hh => h (hmix.mpr hh)
    simp only [h, if_false, if_neg h2]

/-- The bits that the inner loop of `crc8` sees in `i` rounds on the byte `b`. -/
theorem crc8Bits_eq_foldl (i : Nat) : ∀ (crc b : Byte),
    crc8Bits i crc b
      = ((List.range i).map fun k => b.val.testBit k).foldl crcStep crc := by
  induction i with
  | zero => intro crc b; rfl
  | succ i ih =>
    intro crc b
    rw [crc8Bits_succ, ih, List.range_succ_eq_map, List.map_cons, List.foldl_cons, List.map_map]
    congr 1
    apply List.map_congr_left
    intro k _
    simp only [Function.comp_apply, byte_shiftRight_one_val]
    rw [Nat.testBit_succ]

theorem crc8Loop_eq_foldl (d : List Byte) : ∀ crc : Byte,
    crc8Loop d crc = (d.flatMap lsbFirstBits).foldl crcStep crc := by
  induction d with
  | nil => intro crc; rfl
  | cons b rest ih =>
    intro crc
    rw [crc8Loop, ih, List.flatMap_cons, List.foldl_append, crc8Bits_eq_foldl]
    rfl
theorem crcStep_val (crc b : Byte) :
    (crcStep crc (b.val.testBit 0)).val = specCrc8Shift crc.val b.val := by
  have hbit : ((crc.val.testBit 0 != b.val.testBit 0) = true) ↔
      (crc.val % 2 + b.val % 2) % 2 = 1 := by
    rw [Nat.testBit_zero, Nat.testBit_zero]
    rcases Nat.mod_two_eq_zero_or_one crc.val with h1 | h1 <;>
      rcases Nat.mod_two_eq_zero_or_one b.val with h2 | h2 <;> simp [h1, h2]
  rw [crcStep, specCrc8Shift]
  by_cases h : (crc.val.testBit 0 != b.val.testBit 0) = true
  · rw [if_pos h, if_pos (hbit.mp h), byte_xor_val, byte_shiftRight_one_val]
    rfl
  · rw [if_neg h, if_neg (fun hh => h (hbit.mpr hh)), byte_shiftRight_one_val]

theorem crc8Bits_val (i : Nat) : ∀ (crc b : Byte),
    (crc8Bits i crc b).val = specCrc8Byte i crc.val b.val := by
  induction i with
  | zero => intro crc b; rfl
  | succ i ih =>
    intro crc b
    rw [crc8Bits_succ, ih, crcStep_val, byte_shiftRight_one_val, specCrc8Byte]

theorem crc8Loop_val (d : List Byte) : ∀ crc : Byte,
    (crc8Loop d crc).val = d.foldl (fun crc b => specCrc8Byte 8 crc b.val) crc.val := by
  induction d with
  | nil => intro crc; rfl
  | cons b rest ih =>
    intro crc
    rw [crc8Loop, ih, crc8Bits_val, List.foldl_cons]
open Polynomial in
theorem maximPolynomial_monic : maximPolynomial.Monic := by
  unfold maximPolynomial
  monicity!

open Polynomial in
theorem maximPolynomial_degree : maximPolynomial.degree = 8 := by
  unfold maximPolynomial
  compute_degree!

/-- The bits of the register after one shift step. -/
theorem lsbFirstBits_crcStep (c : Byte) (m : Bool) :
    lsbFirstBits (crcStep c m) =
      [c.val.testBit 1, c.val.testBit 2,
        (c.val.testBit 3 != (c.val.testBit 0 != m)),
        (c.val.testBit 4 != (c.val.testBit 0 != m)),
        c.val.testBit 5, c.val.testBit 6, c.val.testBit 7, (c.val.testBit 0 != m)] := by
  revert c m
  decide

theorem lsbFirstBits_eq (c : Byte) :
    lsbFirstBits c = [c.val.testBit 0, c.val.testBit 1, c.val.testBit 2, c.val.testBit 3,
      c.val.testBit 4, c.val.testBit 5, c.val.testBit 6, c.val.testBit 7] := rfl

theorem bitCoeff_xor (a b : Bool) :
    ((if (a != b) = true then 1 else 0 : Polynomial (ZMod 2)))
      = (if a = true then 1 else 0) + (if b = true then 1 else 0) := by
  have h2 : (1 : Polynomial (ZMod 2)) + 1 = 0 := by
    rw [one_add_one_eq_two]
    exact CharP.cast_eq_zero (Polynomial (ZMod 2)) 2
  cases a <;> cases b <;> simp [h2]

theorem bitCoeff_eq_C (b : Bool) :
    ((if b = true then 1 else 0 : Polynomial (ZMod 2)))
      = Polynomial.C (if b = true then 1 else 0) := by
  cases b <;> simp

open Polynomial in
theorem bitFoldl_degree_lt (bits : List Bool) :
    ∀ (p : Polynomial (ZMod 2)) (k : ℕ), p.degree < (k : WithBot ℕ) →
      (bits.foldl (fun p bit => p * X + (if bit = true then 1 else 0)) p).degree
        < ((k + bits.length : ℕ) : WithBot ℕ) := by
  induction bits with
  | nil => intro p k h; simpa using h
  | cons b rest ih =>
    intro p k h
    rw [List.foldl_cons, List.length_cons, ← Nat.add_assoc, Nat.add_right_comm]
    apply ih
    rw [Polynomial.degree_lt_iff_coeff_zero] at h ⊢
    intro m hm
    obtain ⟨n, rfl⟩ : ∃ n, m = n + 1 := ⟨m - 1, by omega⟩
    rw [Polynomial.coeff_add, Polynomial.coeff_mul_X, h n (by omega), bitCoeff_eq_C,
      Polynomial.coeff_C_succ, add_zero]

theorem bitPolynomial_degree_lt (bits : List Bool) :
    (bitPolynomial bits).degree < ((bits.length : ℕ) : WithBot ℕ) := by
  have h := bitFoldl_degree_lt bits 0 0 (by simp)
  simpa [bitPolynomial] using h

theorem poly_add_self (y : Polynomial (ZMod 2)) : y + y = 0 := by
  rw [← two_mul]
  have : (2 : Polynomial (ZMod 2)) = 0 := CharP.cast_eq_zero (Polynomial (ZMod 2)) 2
  rw [this, zero_mul]

open Polynomial in
/-- One shift step of the register on the bit `m` multiplies the register
polynomial by `x`, adds `m * x^8` and reduces by the generator. -/
theorem bitPolynomial_crcStep (c : Byte) (m : Bool) :
    bitPolynomial (lsbFirstBits (crcStep c m))
      = Polynomial.modByMonic
          (bitPolynomial (lsbFirstBits c) * X + (if m = true then 1 else 0) * X ^ 8)
          maximPolynomial := by
  symm
  refine (Polynomial.div_modByMonic_unique
    ((if c.val.testBit 0 = true then 1 else 0) + (if m = true then 1 else 0))
    _ maximPolynomial_monic ⟨?_, ?_⟩).2
  · rw [lsbFirstBits_crcStep, lsbFirstBits_eq]
    simp only [bitPolynomial, List.foldl_cons, List.foldl_nil, bitCoeff_xor, maximPolynomial]
    generalize (if c.val.testBit 0 = true then (1 : Polynomial (ZMod 2)) else 0) = c0
    generalize (if m = true then (1 : Polynomial (ZMod 2)) else 0) = mm
    linear_combination (X ^ 5 + X ^ 4 + 1) * poly_add_self (c0 + mm)
  · rw [maximPolynomial_degree]
    have h := bitPolynomial_degree_lt (lsbFirstBits (crcStep c m))
    rw [lsbFirstBits_crcStep] at h ⊢
    exact h
open Polynomial in
/-- The register follows the remainder of the message read so far: if the
register polynomial is the remainder of `p * x^8`, then after shifting in the
bits `bits` it is the remainder of `(p` extended by `bits) * x^8`. -/
theorem crcStep_foldl_poly (bits : List Bool) :
    ∀ (c : Byte) (p : Polynomial (ZMod 2)),
      bitPolynomial (lsbFirstBits c) = Polynomial.modByMonic (p * X ^ 8) maximPolynomial →
      bitPolynomial (lsbFirstBits (bits.foldl crcStep c))
        = Polynomial.modByMonic
            (bits.foldl (fun p bit => p * X + (if bit = true then 1 else 0)) p * X ^ 8)
            maximPolynomial := by
  induction bits with
  | nil => intro c p h; exact h
  | cons m rest ih =>
    intro c p h
    rw [List.foldl_cons, List.foldl_cons]
    apply ih
    rw [bitPolynomial_crcStep, h]
    apply Polynomial.modByMonic_eq_of_dvd_sub maximPolynomial_monic
    refine ⟨-(Polynomial.divByMonic (p * X ^ 8) maximPolynomial) * X, ?_⟩
    have hdiv := Polynomial.modByMonic_add_div (p * X ^ 8) maximPolynomial_monic
    linear_combination X * hdiv

/-- The register polynomial of `crc8Loop` started at zero is the CRC-8/MAXIM
remainder of the bytes. -/
theorem crc8Loop_poly (d : List Byte) :
    bitPolynomial (lsbFirstBits (crc8Loop d 0x00)) = maximRemainder d := by
  rw [crc8Loop_eq_foldl, maximRemainder, bitPolynomial]
  apply crcStep_foldl_poly
  have h0 : bitPolynomial (lsbFirstBits (0x00 : Byte)) = 0 := by
    simp [bitPolynomial, lsbFirstBits_eq]
  rw [h0, zero_mul, Polynomial.zero_modByMonic]
open Polynomial in
theorem horner_coeff (a0 a1 a2 a3 a4 a5 a6 a7 : ZMod 2) (j : ℕ) (hj : j < 8) :
    (((((((((0 : Polynomial (ZMod 2)) * X + C a0) * X + C a1) * X + C a2) * X + C a3) * X
      + C a4) * X + C a5) * X + C a6) * X + C a7).coeff j
      = [a7, a6, a5, a4, a3, a2, a1, a0].getD j 0 := by
  interval_cases j <;>
    simp [Polynomial.coeff_mul_X, Polynomial.coeff_C_succ, Polynomial.coeff_C_zero,
      Polynomial.mul_coeff_zero]

open Polynomial in
theorem bitPolynomial_coeff (c : Byte) (j : ℕ) (hj : j < 8) :
    (bitPolynomial (lsbFirstBits c)).coeff j
      = [(if c.val.testBit 7 = true then 1 else 0 : ZMod 2),
          if c.val.testBit 6 = true then 1 else 0, if c.val.testBit 5 = true then 1 else 0,
          if c.val.testBit 4 = true then 1 else 0, if c.val.testBit 3 = true then 1 else 0,
          if c.val.testBit 2 = true then 1 else 0, if c.val.testBit 1 = true then 1 else 0,
          if c.val.testBit 0 = true then 1 else 0].getD j 0 := by
  rw [lsbFirstBits_eq]
  simp only [bitPolynomial, List.foldl_cons, List.foldl_nil, bitCoeff_eq_C]
  exact horner_coeff _ _ _ _ _ _ _ _ j hj

theorem bitCoeff_inj (x y : Bool)
    (h : (if x = true then 1 else 0 : ZMod 2) = if y = true then 1 else 0) : x = y := by
  revert x y
  decide

/-- A byte is determined by its register polynomial. -/
theorem bitPolynomial_injective (a b : Byte)
    (h : bitPolynomial (lsbFirstBits a) = bitPolynomial (lsbFirstBits b)) : a = b := by
  have hc : ∀ j, j < 8 → (bitPolynomial (lsbFirstBits a)).coeff j
      = (bitPolynomial (lsbFirstBits b)).coeff j := fun j _ => by rw [h]
  have hbits : ∀ i, i < 8 → a.val.testBit i = b.val.testBit i := by
    intro i hi
    have := hc (7 - i) (by omega)
    rw [bitPolynomial_coeff a _ (by omega), bitPolynomial_coeff b _ (by omega)] at this
    interval_cases i <;> exact bitCoeff_inj _ _ (by simpa using this)
  apply Fin.ext
  apply Nat.eq_of_testBit_eq
  intro i
  by_cases hi : i < 8
  · exact hbits i hi
  · have hp : 256 ≤ 2 ^ i :=
      calc 256 = 2 ^ 8 := by norm_num
        _ ≤ 2 ^ i := Nat.pow_le_pow_right (by norm_num) (by omega)
    rw [Nat.testBit_lt_two_pow (lt_of_lt_of_le a.isLt hp),
      Nat.testBit_lt_two_pow (lt_of_lt_of_le b.isLt hp)]

/-- C6: for every 8-byte array `d`, `crc8(d)` is the Dallas/Maxim 1-Wire CRC8
of `d` in the words of the specification (`specCrc8`), and it is the CRC-8/MAXIM
remainder: the bits of `crc8(d)`, least significant first, are the coefficients
(highest power first) of the remainder by `x^8 + x^5 + x^4 + 1` of the message
polynomial times `x^8`, and `crc8(d)` is the only byte with that property; on
the Maxim reference ROM the result is `0x00`. -/
theorem crc8_is_maxim (d : List Byte) (hd : d.length = 8) :
    (crc8 d).val = specCrc8 d ∧
    bitPolynomial (lsbFirstBits (crc8 d)) = maximRemainder d ∧
    (∀ c : Byte, bitPolynomial (lsbFirstBits c) = maximRemainder d → c = crc8 d) ∧
    crc8 [0x02, 0x1C, 0xB8, 0x01, 0x00, 0x00, 0x00, 0xA2] = 0x00 := by
  have htake : d.take 8 = d := List.take_of_length_le (by omega)
  have hpoly : bitPolynomial (lsbFirstBits (crc8 d)) = maximRemainder d := by
    rw [crc8, htake]
    exact crc8Loop_poly d
  refine ⟨?_, hpoly, fun c hc => ?_, by decide⟩
  · rw [crc8, htake, crc8Loop_val]
    rfl
  · exact bitPolynomial_injective c (crc8 d) (hc.trans hpoly.symm)

/-- The hypothesis of C6 holds for the Maxim reference ROM, on which the
checksum in the words of the specification is `0`. -/
theorem crc8_is_maxim_witness :
    [(0x02 : Byte), 0x1C, 0xB8, 0x01, 0x00, 0x00, 0x00, 0xA2].length = 8 ∧
      specCrc8 [0x02, 0x1C, 0xB8, 0x01, 0x00, 0x00, 0x00, 0xA2] = 0 :=
  ⟨rfl, by
    have h := (crc8_is_maxim [0x02, 0x1C, 0xB8, 0x01, 0x00, 0x00, 0x00, 0xA2] rfl)
    rw [← h.1, h.2.2.2]
    rfl⟩

/-! ## C7: self-consistency of the checksum -/

theorem crcUnstep_crcStep (c : Byte) (m : Bool) : crcUnstep (crcStep c m) m = c := by
  revert c m
  decide

theorem crcStep_injective (m : Bool) (c c2 : Byte) (h : crcStep c m = crcStep c2 m) : c = c2 := by
  rw [← crcUnstep_crcStep c m, h, crcUnstep_crcStep]

theorem crcStep_foldl_injective (bits : List Bool) : ∀ (c c2 : Byte),
    bits.foldl crcStep c = bits.foldl crcStep c2 → c = c2 := by
  induction bits with
  | nil => intro c c2 h; exact h
  | cons m rest ih =>
    intro c c2 h
    exact crcStep_injective m c c2 (ih _ _ h)

/-- For a fixed input byte the byte step of `crc8` is injective in the register. -/
theorem crc8Bits_injective_crc (b crc crc2 : Byte)
    (h : crc8Bits 8 crc b = crc8Bits 8 crc2 b) : crc = crc2 := by
  rw [crc8Bits_eq_foldl, crc8Bits_eq_foldl] at h
  exact crcStep_foldl_injective _ _ _ h

theorem crc8Loop_injective_crc (d : List Byte) : ∀ (crc crc2 : Byte),
    crc8Loop d crc = crc8Loop d crc2 → crc = crc2 := by
  induction d with
  | nil => intro crc crc2 h; exact h
  | cons b rest ih =>
    intro crc crc2 h
    exact crc8Bits_injective_crc b crc crc2 (ih _ _ h)

theorem byte_xor_shiftRight_one (a b : Byte) : (a ^^^ b) >>> 1 = (a >>> 1) ^^^ (b >>> 1) := by
  apply Fin.ext
  rw [byte_shiftRight_one_val, byte_xor_val, byte_xor_val, byte_shiftRight_one_val,
    byte_shiftRight_one_val]
  apply Nat.eq_of_testBit_eq
  intro i
  simp only [Nat.testBit_xor, Nat.testBit_div_two]

theorem byte_xor_assoc (a b c : Byte) : (a ^^^ b) ^^^ c = a ^^^ (b ^^^ c) := by
  apply Fin.ext
  simp only [byte_xor_val, Nat.xor_assoc]

theorem byte_xor_comm (a b : Byte) : a ^^^ b = b ^^^ a := by
  apply Fin.ext
  simp only [byte_xor_val, Nat.xor_comm]

theorem byte_xor_cancel_left (a b c : Byte) (h : a ^^^ b = a ^^^ c) : b = c := by
  apply Fin.ext
  have := congrArg Fin.val h
  rw [byte_xor_val, byte_xor_val] at this
  exact Nat.xor_right_injective this

/-- One shift step commutes with folding the input byte into the register. -/
theorem crcStep_xor (s b : Byte) :
    crcStep s (b.val.testBit 0) ^^^ (b >>> 1) = crcStep (s ^^^ b) false := by
  have hbit : (s ^^^ b).val.testBit 0 = (s.val.testBit 0 != b.val.testBit 0) := by
    rw [byte_xor_val, Nat.testBit_xor]
  rw [crcStep, crcStep, hbit, byte_xor_shiftRight_one]
  have hx : ∀ x : Bool, (x != false) = x := by decide
  simp only [hx]
  by_cases h : (s.val.testBit 0 != b.val.testBit 0) = true
  · rw [if_pos h, if_pos h, byte_xor_assoc, byte_xor_comm (0x8c : Byte), ← byte_xor_assoc]
  · rw [if_neg h, if_neg h]

/-- The inner loop of `crc8` on `(crc, b)` is the inner loop on `(crc XOR b, 0)`,
up to what is left of `b` after `i` shifts. -/
theorem crc8Bits_xor (i : Nat) : ∀ (s b : Byte),
    crc8Bits i s b ^^^ ((fun x : Byte => x >>> 1)^[i] b) = crc8Bits i (s ^^^ b) 0 := by
  induction i with
  | zero => intro s b; rfl
  | succ i ih =>
    intro s b
    rw [crc8Bits_succ, Function.iterate_succ_apply, ih, crcStep_xor, crc8Bits_succ]
    rfl

theorem byte_shift_eight (b : Byte) : (fun x : Byte => x >>> 1)^[8] b = 0 := by
  revert b
  decide

theorem byte_xor_zero (a : Byte) : a ^^^ 0 = a := by
  apply Fin.ext
  rw [byte_xor_val]
  exact Nat.xor_zero _

/-- For a fixed register the byte step of `crc8` is injective in the input byte. -/
theorem crc8Bits_injective_byte (s b b2 : Byte)
    (h : crc8Bits 8 s b = crc8Bits 8 s b2) : b = b2 := by
  have h1 := crc8Bits_xor 8 s b
  have h2 := crc8Bits_xor 8 s b2
  rw [byte_shift_eight, byte_xor_zero] at h1 h2
  rw [h1, h2] at h
  exact byte_xor_cancel_left s b b2 (crc8Bits_injective_crc 0 _ _ h)

theorem crc8Loop_append (a b : List Byte) : ∀ crc : Byte,
    crc8Loop (a ++ b) crc = crc8Loop b (crc8Loop a crc) := by
  induction a with
  | nil => intro crc; rfl
  | cons x rest ih => intro crc; exact ih _

/-- Two byte sequences that differ in one position at most and have the same
checksum are equal. -/
theorem crc8Loop_one_byte (pre post : List Byte) (b b2 crc : Byte)
    (h : crc8Loop (pre ++ b :: post) crc = crc8Loop (pre ++ b2 :: post) crc) : b = b2 := by
  rw [crc8Loop_append, crc8Loop_append, crc8Loop, crc8Loop] at h
  exact crc8Bits_injective_byte _ _ _ (crc8Loop_injective_crc post _ _ h)

/-- C7, as stated, fails: the Maxim reference ROM and eight zero bytes are
different 8-byte sequences with the same `crc8`. -/
theorem crc8_collision :
    ¬ (crc8 [0x02, 0x1C, 0xB8, 0x01, 0x00, 0x00, 0x00, 0xA2]
          = crc8 [0x00, 0x00, 0x00, 0x00, 0x00, 0x00, 0x00, 0x00] ↔
        [(0x02 : Byte), 0x1C, 0xB8, 0x01, 0x00, 0x00, 0x00, 0xA2]
          = [0x00, 0x00, 0x00, 0x00, 0x00, 0x00, 0x00, 0x00]) := by
  decide

/-- C7, amended: for every 8-byte sequence `d` the check of the validator holds
on `d` followed by `crc8(d)`; and for every sequence `d2` that differs from `d`
in one byte position at most, `crc8(d2) = crc8(d)` if and only if `d2 = d`. -/
theorem crc8_self_consistency (d : List Byte) (hd : d.length = 8) :
    crc8 ((d ++ [crc8 d]).take 8) = (d ++ [crc8 d]).getD 8 0 ∧
    ∀ (pre post : List Byte) (b b2 : Byte), d = pre ++ b :: post →
      (crc8 (pre ++ b2 :: post) = crc8 d ↔ pre ++ b2 :: post = d) := by
  refine ⟨?_, ?_⟩
  · have h1 : (d ++ [crc8 d]).take 8 = d := by
      rw [← hd, List.take_left]
    have h2 : (d ++ [crc8 d]).getD 8 0 = crc8 d := by
      rw [List.getD_eq_getElem?_getD, ← hd, List.getElem?_append_right (le_refl _)]
      simp
    rw [h1, h2]
  · intro pre post b b2 hsplit
    constructor
    · intro h
      have hlen : (pre ++ b :: post).length = 8 := by rw [← hsplit, hd]
      have hlen2 : (pre ++ b2 :: post).length = 8 := by
        simpa only [List.length_append, List.length_cons] using hlen
      rw [hsplit, crc8, crc8, List.take_of_length_le (by omega),
        List.take_of_length_le (by omega)] at h
      rw [hsplit, crc8Loop_one_byte pre post b2 b 0x00 h]
    · intro h
      rw [h]

/-- The hypothesis of C7 (amended) holds for the first eight bytes of the
example scratchpad: replacing its first byte `0x90` by `0x91` changes `crc8`. -/
theorem crc8_self_consistency_witness :
    examplePad8.length = 8 ∧
      crc8 ([] ++ (0x91 : Byte) :: [0x01, 0x4B, 0x46, 0x7F, 0xFF, 0x0C, 0x10])
        ≠ crc8 examplePad8 :=
  ⟨rfl, fun h => absurd
    (((crc8_self_consistency examplePad8 rfl).2 [] [0x01, 0x4B, 0x46, 0x7F, 0xFF, 0x0C, 0x10]
      0x90 0x91 rfl).mp h) (by decide)⟩

/-! ## C20: the reply buffer of `reset` -/

theorem fillBuffer_one_length (data : List Byte) (h : data.length ≤ 1) :
    (fillBuffer [0x00] data).length = 1 := by
  match data, h with
  | [], _ => rfl
  | [_], _ => rfl

theorem resetClassify_ne_replyLength (rbuff : List Byte) (h : rbuff.length = 1) :
    resetClassify rbuff ≠ some Error.resetReplyLength := by
  unfold resetClassify
  rw [if_neg (by simp [h])]
  split_ifs <;> simp

/-- The result of a `reset` whose trace shows both `SetMode` calls succeeding
and the `Read` storing `data` is the classification of the reply buffer. -/
theorem reset_result_of_trace (P : Port σ) (u : USBtemp σ) (data : List Byte)
    (dErr wErr rErr : Option Error) (n : Nat)
    (htrace : (reset P u).1.trace = u.trace ++ [Event.SetMode mode9600 none, Event.Drain dErr,
      Event.Write [0xf0] n wErr, Event.Read 1 data rErr, Event.SetMode mode115200 none]) :
    (reset P u).2 = resetClassify (fillBuffer [0x00] data) := by
  rcases reset_trace P u with ⟨e, _, ht⟩ | ⟨d, m, w, data2, re, _, ⟨e, _, ht⟩ | ⟨he, ht⟩⟩
  · rw [htrace] at ht
    simpa using List.append_cancel_left ht
  · rw [htrace] at ht
    simpa using List.append_cancel_left ht
  · rw [htrace] at ht
    have hd : data = data2 := by
      have := List.append_cancel_left ht
      simp only [List.cons.injEq, Event.Read.injEq] at this
      exact this.2.2.2.1.2.1
    rw [he, hd]

/-- C20: `reset` never returns the invalid-reply-length error, for any port and
any state; and when both `SetMode` calls succeed and the `Read` after the reset
pulse stores no byte (whatever error it returns), the buffer keeps its `0x00`
and `reset` returns the short-circuit error. -/
theorem reset_reply_buffer (P : Port σ) (u : USBtemp σ) :
    (reset P u).2 ≠ some Error.resetReplyLength ∧
    ∀ (dErr wErr rErr : Option Error) (n : Nat),
      (reset P u).1.trace = u.trace ++ [Event.SetMode mode9600 none, Event.Drain dErr,
        Event.Write [0xf0] n wErr, Event.Read 1 [] rErr, Event.SetMode mode115200 none] →
      (reset P u).2 = some Error.resetShortCircuit := by
  constructor
  · rcases reset_trace P u with ⟨e, he, _⟩ | ⟨d, m, w, data, re, hle, ⟨e, he, _⟩ | ⟨he, _⟩⟩
    · rw [he]; simp
    · rw [he]; simp
    · rw [he]
      exact resetClassify_ne_replyLength _ (fillBuffer_one_length data hle)
  · intro dErr wErr rErr n htrace
    rw [reset_result_of_trace P u [] dErr wErr rErr n htrace]
    rfl

/-- The second part of C20 applies to the replay port with nothing to receive:
the `Read` stores no byte and `reset` returns the short-circuit error. -/
theorem reset_reply_buffer_witness :
    (reset replayPort (newProbe [])).2 = some Error.resetShortCircuit :=
  (reset_reply_buffer replayPort (newProbe [])).2 none none none 1 rfl
/-! ## C17: the range of the Celsius value -/

/-- C17: on a delivered scratchpad that passes the check, the Celsius value
returned by `Temperature(false)` lies in `[0, 4095.9375]`: the register is read
as an unsigned 16-bit number, so the register bytes `0xF8, 0xFF` give `4095.5`. -/
theorem Temperature_celsius_range (P : Port σ) (fuel : Nat) (u u7 : USBtemp σ) (s : List Byte)
    (hrun : ScratchpadDelivered P fuel u u7 s) (hcrc : crc8 (s.take 8) = s.getD 8 0) :
    ∃ c : ℚ,
      Temperature P fuel false u = some (u7, (c, none)) ∧
      0 ≤ c ∧ c ≤ 4095.9375 ∧
      (s.getD 0 0 = 0xF8 → s.getD 1 0 = 0xFF → c = 4095.5) := by
  have hlen := delivered_length P fuel u u7 s hrun
  have hT := Temperature_of_delivered P fuel false u u7 s hrun
  rw [if_neg (not_not.mpr hcrc), decodeTemperature_celsius s hlen] at hT
  have ha := (s.getD 0 0).isLt
  have hb := (s.getD 1 0).isLt
  have hk : (((s.getD 0 0).val + 256 * (s.getD 1 0).val : ℕ) : ℚ) ≤ 65535 := by
    have : (s.getD 0 0).val + 256 * (s.getD 1 0).val ≤ 65535 := by omega
    exact_mod_cast this
  refine ⟨_, hT, by positivity, ?_, fun h0 h1 => ?_⟩
  · rw [div_le_iff₀ (by norm_num)]
    have h16 : (4095.9375 : ℚ) * 16 = 65535 := by norm_num
    rw [h16]
    exact hk
  · rw [h0, h1]
    have e0 : ((0xF8 : Byte) : ℕ) = 248 := rfl
    have e1 : ((0xFF : Byte) : ℕ) = 255 := rfl
    rw [e0, e1]
    norm_num

/-- The hypotheses of C17 hold on the replayed run of a scratchpad whose
register holds `0xFFF8`: the value returned is `4095.5`. -/
theorem Temperature_celsius_range_witness :
    ∃ u7 : USBtemp (List Byte),
      ScratchpadDelivered replayPort 1 (newProbe (temperatureInput subZeroPad)) u7 subZeroPad ∧
      crc8 (subZeroPad.take 8) = subZeroPad.getD 8 0 ∧
      Temperature replayPort 1 false (newProbe (temperatureInput subZeroPad))
        = some (u7, (4095.5, none)) := by
  have hrun : ∃ u7 : USBtemp (List Byte),
      ScratchpadDelivered replayPort 1 (newProbe (temperatureInput subZeroPad)) u7 subZeroPad :=
    ⟨_, _, _, _, _, _, _, rfl, rfl, rfl, rfl, rfl, rfl, rfl⟩
  obtain ⟨u7, h⟩ := hrun
  obtain ⟨c, hT, _, _, hc⟩ :=
    Temperature_celsius_range replayPort 1 _ u7 subZeroPad h (by decide)
  rw [hc (by decide) (by decide)] at hT
  exact ⟨u7, h, by decide, hT⟩

/-! ## C18: corruption confined to one data byte -/

/-- C18: two 8-byte arrays that differ in exactly one byte position have
different `crc8`; hence `Temperature` returns the CRC validation error on a
delivered scratchpad in which one of the bytes 0..7 was altered and the check
byte was not. -/
theorem crc8_detects_one_byte (pre post : List Byte) (b b2 : Byte)
    (hlen : (pre ++ b :: post).length = 8) (hne : b ≠ b2) :
    crc8 (pre ++ b :: post) ≠ crc8 (pre ++ b2 :: post) ∧
    ∀ (P : Port σ) (fuel : Nat) (fahrenheit : Bool) (u u7 : USBtemp σ),
      ScratchpadDelivered P fuel u u7 (pre ++ b2 :: post ++ [crc8 (pre ++ b :: post)]) →
      Temperature P fuel fahrenheit u = some (u7, (0, some Error.crcValidation)) := by
  have hlen2 : (pre ++ b2 :: post).length = 8 := by
    simpa only [List.length_append, List.length_cons] using hlen
  have hcrc : crc8 (pre ++ b :: post) ≠ crc8 (pre ++ b2 :: post) := by
    intro h
    rw [crc8, crc8, List.take_of_length_le (by omega), List.take_of_length_le (by omega)] at h
    exact hne (crc8Loop_one_byte pre post b b2 0x00 h)
  refine ⟨hcrc, fun P fuel fahrenheit u u7 hrun => ?_⟩
  rw [Temperature_of_delivered P fuel fahrenheit u u7 _ hrun]
  have h1 : (pre ++ b2 :: post ++ [crc8 (pre ++ b :: post)]).take 8 = pre ++ b2 :: post := by
    rw [← hlen2, List.take_left]
  have h2 : (pre ++ b2 :: post ++ [crc8 (pre ++ b :: post)]).getD 8 0
      = crc8 (pre ++ b :: post) := by
    rw [List.getD_eq_getElem?_getD, ← hlen2, List.getElem?_append_right (le_refl _)]
    simp
  rw [h1, h2, if_pos (fun h => hcrc h.symm)]

/-- The hypotheses of C18 hold for the example scratchpad with its first byte
`0x90` altered to `0x91`: the check bytes differ and the replayed run of
`Temperature` returns the CRC validation error. -/
theorem crc8_detects_one_byte_witness :
    ([] ++ (0x90 : Byte) :: [0x01, 0x4B, 0x46, 0x7F, 0xFF, 0x0C, 0x10]).length = 8 ∧
    (0x90 : Byte) ≠ 0x91 ∧
    crc8 ([] ++ (0x90 : Byte) :: [0x01, 0x4B, 0x46, 0x7F, 0xFF, 0x0C, 0x10])
      ≠ crc8 ([] ++ (0x91 : Byte) :: [0x01, 0x4B, 0x46, 0x7F, 0xFF, 0x0C, 0x10]) ∧
    ∃ u7 : USBtemp (List Byte),
      Temperature replayPort 1 false
          (newProbe (temperatureInput ([] ++ (0x91 : Byte) ::
            [0x01, 0x4B, 0x46, 0x7F, 0xFF, 0x0C, 0x10] ++
            [crc8 ([] ++ (0x90 : Byte) :: [0x01, 0x4B, 0x46, 0x7F, 0xFF, 0x0C, 0x10])])))
        = some (u7, (0, some Error.crcValidation)) := by
  have hthm := crc8_detects_one_byte (σ := List Byte) []
    [0x01, 0x4B, 0x46, 0x7F, 0xFF, 0x0C, 0x10] 0x90 0x91 rfl (by decide)
  have hrun : ∃ u7 : USBtemp (List Byte),
      ScratchpadDelivered replayPort 1
        (newProbe (temperatureInput ([] ++ (0x91 : Byte) ::
          [0x01, 0x4B, 0x46, 0x7F, 0xFF, 0x0C, 0x10] ++
          [crc8 ([] ++ (0x90 : Byte) :: [0x01, 0x4B, 0x46, 0x7F, 0xFF, 0x0C, 0x10])])))
        u7
        ([] ++ (0x91 : Byte) :: [0x01, 0x4B, 0x46, 0x7F, 0xFF, 0x0C, 0x10] ++
          [crc8 ([] ++ (0x90 : Byte) :: [0x01, 0x4B, 0x46, 0x7F, 0xFF, 0x0C, 0x10])]) :=
    ⟨_, _, _, _, _, _, _, rfl, rfl, rfl, rfl, rfl, rfl, rfl⟩
  obtain ⟨u7, h⟩ := hrun
  exact ⟨rfl, by decide, hthm.1, u7, hthm.2 replayPort 1 false _ u7 h⟩

/-! ## C11: a failed reset -/

/-- C11: when the response byte `r` of a reset (both `SetMode` calls
succeeding) is outside `[0x10, 0xE0]`, the reset fails with the error `e` that
classifies `r`; `Rom()` and `Temperature()` started in that state return `e` in
the state in which the reset ended, having written the reset marker `0xF0` and
nothing else; and when that reset is the second one of `Temperature`, the
command returns `e` having sent the reset marker, the markers of `0xCC` and
`0x44`, the wait and the second reset marker, and no marker of `0xCC` or `0xBE`
after it. -/
theorem reset_failure_aborts (P : Port σ) (fuel : Nat) (fahrenheit : Bool)
    (u u1 : USBtemp σ) (err : Option Error) (r : Byte) (dErr wErr rErr : Option Error) (n : Nat)
    (hreset : reset P u = (u1, err))
    (htrace : u1.trace = u.trace ++ [Event.SetMode mode9600 none, Event.Drain dErr,
      Event.Write [0xf0] n wErr, Event.Read 1 [r] rErr, Event.SetMode mode115200 none])
    (hr : ¬ (0x10 ≤ r ∧ r ≤ 0xe0)) :
    ∃ e : Error,
      err = some e ∧
      e = (if r = 0xf0 then Error.resetNoDevice
            else if r = 0x00 then Error.resetShortCircuit else Error.resetPresence r) ∧
      Rom P fuel u = some (u1, ("", some e)) ∧
      Temperature P fuel fahrenheit u = some (u1, (0, some e)) ∧
      outputs u1.trace = outputs u.trace ++ [Output.bytes [0xf0]] ∧
      bytesWritten u1.trace = bytesWritten u.trace ++ [0xf0] ∧
      ∀ u0 ua ub uc : USBtemp σ,
        reset P u0 = (ua, none) → write P fuel 0xcc ua = some (ub, none) →
        write P fuel 0x44 ub = some (uc, none) → sleepSecond uc = u →
        Temperature P fuel fahrenheit u0 = some (u1, (0, some e)) ∧
        outputs u1.trace = outputs u0.trace ++
          [Output.bytes [0xf0],
            Output.bytes [0x00, 0x00, 0xff, 0xff, 0x00, 0x00, 0xff, 0xff],
            Output.bytes [0x00, 0x00, 0xff, 0x00, 0x00, 0x00, 0xff, 0x00],
            Output.wait,
            Output.bytes [0xf0]] := by
  have h1 : (reset P u).1 = u1 := by rw [hreset]
  have h2 : (reset P u).2 = err := by rw [hreset]
  have hres := reset_result_of_trace P u [r] dErr wErr rErr n (by rw [h1]; exact htrace)
  rw [h2] at hres
  have hfill : fillBuffer [0x00] [r] = [r] := rfl
  rw [hfill] at hres
  have hcls : resetClassify [r] = some (if r = 0xf0 then Error.resetNoDevice
      else if r = 0x00 then Error.resetShortCircuit else Error.resetPresence r) := by
    simp only [resetClassify, List.length_singleton, ne_eq, not_true_eq_false, if_false,
      List.getD_cons_zero, if_neg hr]
    split_ifs <;> rfl
  rw [hcls] at hres
  have ho : outputs u1.trace = outputs u.trace ++ [Output.bytes [0xf0]] := by
    rw [htrace, outputs_append]; rfl
  refine ⟨_, hres, rfl, ?_, ?_, ho, ?_, ?_⟩
  · simp only [Rom, hreset, hres]
  · simp only [Temperature, hreset, hres]
  · rw [htrace, bytesWritten_append]; rfl
  · intro u0 ua ub uc hr0 hw1 hw2 hs
    rw [← hs] at hreset ho
    refine ⟨by simp only [Temperature, hr0, hw1, hw2, hreset, hres], ?_⟩
    have os : outputs (sleepSecond uc).trace = outputs uc.trace ++ [Output.wait] := by
      simp [sleepSecond, outputs_append, outputs]
    have ecc : encodeLoop 8 (0xcc : Byte) []
        = [0x00, 0x00, 0xff, 0xff, 0x00, 0x00, 0xff, 0xff] := by decide
    have e44 : encodeLoop 8 (0x44 : Byte) []
        = [0x00, 0x00, 0xff, 0x00, 0x00, 0x00, 0xff, 0x00] := by decide
    rw [ho, os, (write_outputs P fuel 0x44 ub uc _ hw2).1, (write_outputs P fuel 0xcc ua ub _ hw1).1,
      (reset_outputs P u0 ua hr0).1, ecc, e44]
    simp only [List.append_assoc, List.singleton_append, List.cons_append, List.nil_append]

/-- The hypotheses of C11 hold on the replay port: with the response `0x05` to
the first reset `Rom()` returns the presence error; with the response `0xF0` to
the second reset `Temperature()` returns the no-device error. -/
theorem reset_failure_aborts_witness :
    (∃ u1 : USBtemp (List Byte),
      Rom replayPort 1 (newProbe [0x05]) = some (u1, ("", some (Error.resetPresence 0x05))) ∧
      bytesWritten u1.trace = [0xf0]) ∧
    (∃ u1 : USBtemp (List Byte),
      Temperature replayPort 1 true (newProbe ([0x55] ++ lineBits [0xcc, 0x44] ++ [0xf0]))
        = some (u1, (0, some Error.resetNoDevice))) := by
  constructor
  · obtain ⟨e, _, he, hrom, _, _, hb, _⟩ :=
      reset_failure_aborts replayPort 1 false (newProbe [0x05])
        (reset replayPort (newProbe [0x05])).1 (reset replayPort (newProbe [0x05])).2
        0x05 none none none 1 rfl rfl (by decide)
    rw [he] at hrom
    exact ⟨_, hrom, hb⟩
  · have h : ∃ ua ub uc u1 : USBtemp (List Byte),
        reset replayPort (newProbe ([0x55] ++ lineBits [0xcc, 0x44] ++ [0xf0])) = (ua, none) ∧
        write replayPort 1 0xcc ua = some (ub, none) ∧
        write replayPort 1 0x44 ub = some (uc, none) ∧
        reset replayPort (sleepSecond uc) = (u1, some Error.resetNoDevice) ∧
        u1.trace = (sleepSecond uc).trace ++ [Event.SetMode mode9600 none, Event.Drain none,
          Event.Write [0xf0] 1 none, Event.Read 1 [0xf0] none, Event.SetMode mode115200 none] :=
      ⟨_, _, _, _, rfl, rfl, rfl, rfl, rfl⟩
    obtain ⟨ua, ub, uc, u1, h1, h2, h3, h4, h5⟩ := h
    obtain ⟨e, _, he, _, _, _, _, hsecond⟩ :=
      reset_failure_aborts replayPort 1 true (sleepSecond uc) u1 _ 0xf0 none none none 1 h4 h5
        (by decide)
    rw [he] at hsecond
    exact ⟨u1, (hsecond _ ua ub uc h1 h2 h3 rfl).1⟩

/-! ## C14: the markers of `writeByte` -/

theorem decodeLoop_eq_decodeBits (e : List Byte) : ∀ value : Nat,
    decodeLoop e value = decodeBits (e.map fun x => decide (x = 0xff)) value := by
  induction e with
  | nil => intro value; rfl
  | cons x rest ih =>
    intro value
    rw [decodeLoop, List.map_cons, decodeBits, ih]
    by_cases h : x = 0xff <;> simp [h]

/-- Eight comparison outcomes decode to the byte that has them as its bits,
least significant first. -/
theorem decodeBits_testBit :
    ∀ (b0 b1 b2 b3 b4 b5 b6 b7 : Bool) (i : Fin 8),
      (decodeBits [b0, b1, b2, b3, b4, b5, b6, b7] 0 % 256).testBit i.val
        = [b0, b1, b2, b3, b4, b5, b6, b7].getD i.val false := by
  decide

/-- The byte decoded from eight received bytes has bit `i` set exactly when the
`i`-th received byte is `0xff`. -/
theorem decodeLoop_testBit (e : List Byte) (he : e.length = 8) (i : Nat) (hi : i < 8) :
    (Fin.ofNat (decodeLoop e 0) : Byte).val.testBit i = true ↔ e.getD i 0 = 0xff := by
  match e, he with
  | [e0, e1, e2, e3, e4, e5, e6, e7], _ =>
    have h := decodeBits_testBit (decide (e0 = 0xff)) (decide (e1 = 0xff)) (decide (e2 = 0xff))
      (decide (e3 = 0xff)) (decide (e4 = 0xff)) (decide (e5 = 0xff)) (decide (e6 = 0xff))
      (decide (e7 = 0xff)) ⟨i, hi⟩
    have hv : (Fin.ofNat (decodeLoop [e0, e1, e2, e3, e4, e5, e6, e7] 0) : Byte).val
        = decodeBits [decide (e0 = 0xff), decide (e1 = 0xff), decide (e2 = 0xff),
            decide (e3 = 0xff), decide (e4 = 0xff), decide (e5 = 0xff), decide (e6 = 0xff),
            decide (e7 = 0xff)] 0 % 256 := by
      rw [decodeLoop_eq_decodeBits]
      rfl
    rw [hv, h]
    interval_cases i <;> simp

/-- The eight markers of a byte, least significant bit first. -/
theorem encodeLoop_markers (b : Byte) :
    encodeLoop 8 b [] = (List.range 8).map fun i => if b.val.testBit i then 0xff else 0x00 := by
  revert b
  decide

/-- C14: `writeByte(b)` hands to one `Write` exactly eight bytes, the `i`-th
being `0xFF` when bit `i` of `b` is set and `0x00` otherwise; and when that
`Write` succeeds and the read loop then collects exactly eight bytes `e`, the
byte returned has bit `i` set if and only if `e[i] = 0xFF`.  So the marker of a
bit decodes to that bit. -/
theorem writeByte_markers (P : Port σ) (fuel : Nat) (b : Byte) (u u2 : USBtemp σ)
    (e : List Byte)
    (hwrite : (portWrite P (encodeLoop 8 b []) u).2 = (8, none))
    (hread : readLoop P fuel (portWrite P (encodeLoop 8 b []) u).1 0 [] = some (u2, (e, none)))
    (he : e.length = 8) :
    encodeLoop 8 b [] = ((List.range 8).map fun i => if b.val.testBit i then 0xff else 0x00) ∧
    outputs u2.trace = outputs u.trace
      ++ [Output.bytes ((List.range 8).map fun i => if b.val.testBit i then 0xff else 0x00)] ∧
    (∃ v : Byte, writeByte P fuel b u = some (u2, (v, none)) ∧
      ∀ i, i < 8 → (v.val.testBit i = true ↔ e.getD i 0 = 0xff)) ∧
    ∀ bit : Bool, ((if bit then (0xff : Byte) else 0x00) = 0xff ↔ bit = true) := by
  have hwb : writeByte P fuel b u = some (u2, (Fin.ofNat (decodeLoop e 0), none)) := by
    simp only [writeByte, hwrite, hread, encodeLoop_length, ne_eq, not_true_eq_false, if_false]
  refine ⟨encodeLoop_markers b, ?_, ⟨_, hwb, fun i hi => decodeLoop_testBit e he i hi⟩, by decide⟩
  rw [← encodeLoop_markers b]
  exact (writeByte_outputs P fuel b u u2 _ hwb).1

/-- The hypotheses of C14 hold on the replay port that delivers the bytes
`0xff, 0x00, 0x17, 0xff, 0x00, 0x00, 0xfe, 0x00` to `writeByte(0x5a)`: the byte
returned is `0x09`, the byte `0x17` and `0xfe` counting as `0`. -/
theorem writeByte_markers_witness :
    ∃ u2 : USBtemp (List Byte),
      writeByte replayPort 1 0x5a (newProbe [0xff, 0x00, 0x17, 0xff, 0x00, 0x00, 0xfe, 0x00])
        = some (u2, (0x09, none)) ∧
      outputs u2.trace
        = [Output.bytes [0x00, 0xff, 0x00, 0xff, 0xff, 0x00, 0xff, 0x00]] := by
  have h := writeByte_markers replayPort 1 0x5a
    (newProbe [0xff, 0x00, 0x17, 0xff, 0x00, 0x00, 0xfe, 0x00]) _
    [0xff, 0x00, 0x17, 0xff, 0x00, 0x00, 0xfe, 0x00] rfl rfl rfl
  exact ⟨_, rfl, h.2.1⟩

/-! ## C19: termination of the read loop -/

theorem readCount_append (a b : List Event) : readCount (a ++ b) = readCount a + readCount b := by
  induction a with
  | nil => simp [readCount]
  | cons e a ih =>
    cases e
    all_goals simp [readCount, ih]
    all_goals omega

/-- More fuel does not change what the read loop returns. -/
theorem readLoop_fuel_mono (P : Port σ) (extra : Nat) :
    ∀ (fuel : Nat) (u : USBtemp σ) (readBytes : Nat) (rbuff : List Byte)
      (r : USBtemp σ × (List Byte × Option Error)),
      readLoop P fuel u readBytes rbuff = some r →
        readLoop P (fuel + extra) u readBytes rbuff = some r := by
  intro fuel
  induction fuel with
  | zero =>
    intro u readBytes rbuff r h
    simp only [readLoop] at h
    split at h
    · exact absurd h (by simp)
    · rename_i hge
      cases extra with
      | zero => simp only [Nat.add_zero, readLoop, if_neg hge]; exact h
      | succ k => simp only [Nat.zero_add, readLoop, if_neg hge]; exact h
  | succ fuel ih =>
    intro u readBytes rbuff r h
    rw [Nat.add_right_comm]
    simp only [readLoop] at h ⊢
    split at h
    · rename_i hlt
      rw [if_pos hlt]
      split at h
      · exact h
      · exact ih _ _ _ _ h
    · rename_i hge
      rw [if_neg hge]
      exact h

/-- When every `Read` returns an error or at least one byte, the read loop
returns within as many `Read` calls as there are bytes missing. -/
theorem readLoop_terminates (P : Port σ)
    (hprog : ∀ s : σ, (P.Read 8 s).1.2 ≠ none ∨ 0 < (P.Read 8 s).1.1.length) :
    ∀ (fuel : Nat) (u : USBtemp σ) (readBytes : Nat) (rbuff : List Byte),
      8 ≤ fuel + readBytes →
      ∃ (u2 : USBtemp σ) (res : List Byte × Option Error),
        readLoop P fuel u readBytes rbuff = some (u2, res) ∧
          readCount u2.trace + readBytes ≤ readCount u.trace + max 8 readBytes := by
  intro fuel
  induction fuel with
  | zero =>
    intro u readBytes rbuff hfuel
    refine ⟨u, (rbuff, none), ?_, ?_⟩
    · simp only [readLoop]
      rw [if_neg (by omega)]
    · omega
  | succ fuel ih =>
    intro u readBytes rbuff hfuel
    by_cases hlt : readBytes < 8
    · simp only [readLoop, if_pos hlt]
      have hcount : readCount (portRead P 8 u).1.trace = readCount u.trace + 1 := by
        simp [portRead, readCount_append, readCount]
      cases herr : (portRead P 8 u).2.2 with
      | some e =>
        refine ⟨_, _, rfl, ?_⟩
        rw [hcount]
        omega
      | none =>
        have hdata : 0 < (portRead P 8 u).2.1.length := by
          rcases hprog u.port with h | h
          · exact absurd herr h
          · exact h
        obtain ⟨u2, res, h2, hc⟩ := ih (portRead P 8 u).1
          (readBytes + (portRead P 8 u).2.1.length) (rbuff ++ (portRead P 8 u).2.1) (by omega)
        refine ⟨u2, res, h2, ?_⟩
        rw [hcount] at hc
        have hle := P.Read_le 8 u.port
        have hlen : (portRead P 8 u).2.1.length ≤ 8 := hle
        omega
    · refine ⟨u, (rbuff, none), ?_, ?_⟩
      · simp only [readLoop, if_neg hlt]
      · omega

/-- The read loop returns either with no error and at least eight bytes
collected, or with the error of its last `Read`. -/
theorem readLoop_exit (P : Port σ) :
    ∀ (fuel : Nat) (u u2 : USBtemp σ) (rbuff rbuff2 : List Byte) (err : Option Error),
      readLoop P fuel u rbuff.length rbuff = some (u2, (rbuff2, err)) →
        (err = none ∧ 8 ≤ rbuff2.length) ∨
        (∃ (e : Error) (data : List Byte), err = some (Error.writeByteFailed e) ∧
          u2.trace.getLast? = some (Event.Read 8 data (some e))) := by
  intro fuel
  induction fuel with
  | zero =>
    intro u u2 rbuff rbuff2 err h
    simp only [readLoop] at h
    split at h
    · exact absurd h (by simp)
    · rename_i hge
      simp only [Option.some.injEq, Prod.mk.injEq] at h
      left
      rw [← h.2.1, ← h.2.2]
      exact ⟨rfl, by omega⟩
  | succ fuel ih =>
    intro u u2 rbuff rbuff2 err h
    simp only [readLoop] at h
    split at h
    · split at h
      · rename_i e he
        simp only [Option.some.injEq, Prod.mk.injEq] at h
        right
        refine ⟨e, (portRead P 8 u).2.1, h.2.2.symm, ?_⟩
        rw [← h.1]
        simp only [portRead] at he ⊢
        simp [he]
      · rw [← List.length_append] at h
        exact ih _ _ _ _ _ h
    · rename_i hge
      simp only [Option.some.injEq, Prod.mk.injEq] at h
      left
      rw [← h.2.1, ← h.2.2]
      exact ⟨rfl, by omega⟩

theorem readLoop_stall : ∀ (fuel : Nat) (u : USBtemp Unit) (readBytes : Nat) (rbuff : List Byte),
    readBytes < 8 → readLoop stallPort fuel u readBytes rbuff = none := by
  intro fuel
  induction fuel with
  | zero => intro u readBytes rbuff h; simp only [readLoop, if_pos h]
  | succ fuel ih =>
    intro u readBytes rbuff h
    simp only [readLoop, if_pos h]
    exact ih _ _ _ h

/-- C19: on a port on which every `Read` returns an error or delivers at least
one byte, `writeByte` returns within eight `Read` calls (more fuel gives the
same result); its read loop is left only with at least eight bytes collected or
with the error of a `Read`; and on a port whose `Read` returns no byte and no
error `writeByte` never returns, whatever the bound on the `Read` calls. -/
theorem writeByte_terminates (P : Port σ) (b : Byte) (u : USBtemp σ)
    (hprog : ∀ s : σ, (P.Read 8 s).1.2 ≠ none ∨ 0 < (P.Read 8 s).1.1.length) :
    (∃ (u2 : USBtemp σ) (res : Byte × Option Error),
      writeByte P 8 b u = some (u2, res) ∧
      readCount u2.trace ≤ readCount u.trace + 8 ∧
      ∀ fuel, 8 ≤ fuel → writeByte P fuel b u = some (u2, res)) ∧
    (∀ (fuel : Nat) (u1 u2 : USBtemp σ) (rbuff : List Byte) (err : Option Error),
      readLoop P fuel u1 0 [] = some (u2, (rbuff, err)) →
        (err = none ∧ 8 ≤ rbuff.length) ∨
        (∃ (e : Error) (data : List Byte), err = some (Error.writeByteFailed e) ∧
          u2.trace.getLast? = some (Event.Read 8 data (some e)))) ∧
    ∀ (fuel : Nat) (b2 : Byte) (u0 : USBtemp Unit), writeByte stallPort fuel b2 u0 = none := by
  refine ⟨?_, fun fuel u1 u2 rbuff err h => readLoop_exit P fuel u1 u2 [] rbuff err h, ?_⟩
  · have hwc : readCount (portWrite P (encodeLoop 8 b []) u).1.trace = readCount u.trace := by
      simp [portWrite, readCount_append, readCount]
    cases hw : (portWrite P (encodeLoop 8 b []) u).2.2 with
    | some e =>
      refine ⟨(portWrite P (encodeLoop 8 b []) u).1, (0x00, some (Error.writeByteFailed e)),
        by simp only [writeByte, hw], by rw [hwc]; omega, fun fuel _ => ?_⟩
      simp only [writeByte, hw]
    | none =>
      by_cases hn : (portWrite P (encodeLoop 8 b []) u).2.1 ≠ (encodeLoop 8 b []).length
      · refine ⟨(portWrite P (encodeLoop 8 b []) u).1, (0x00, some Error.writeByteCount),
          by simp only [writeByte, hw, if_pos hn], by rw [hwc]; omega, fun fuel _ => ?_⟩
        simp only [writeByte, hw, if_pos hn]
      · obtain ⟨u2, res, hloop, hc⟩ := readLoop_terminates P hprog 8
          (portWrite P (encodeLoop 8 b []) u).1 0 [] (by omega)
        have hmono : ∀ fuel, 8 ≤ fuel →
            readLoop P fuel (portWrite P (encodeLoop 8 b []) u).1 0 [] = some (u2, res) := by
          intro fuel hf
          obtain ⟨k, rfl⟩ : ∃ k, fuel = 8 + k := ⟨fuel - 8, by omega⟩
          exact readLoop_fuel_mono P k 8 _ _ _ _ hloop
        rw [hwc] at hc
        obtain ⟨rbuff, err⟩ := res
        cases err with
        | some e =>
          refine ⟨u2, (0x00, some e), by simp only [writeByte, hw, if_neg hn, hloop],
            by omega, fun fuel hf => ?_⟩
          simp only [writeByte, hw, if_neg hn, hmono fuel hf]
        | none =>
          refine ⟨u2, (Fin.ofNat (decodeLoop rbuff 0), none),
            by simp only [writeByte, hw, if_neg hn, hloop], by omega, fun fuel hf => ?_⟩
          simp only [writeByte, hw, if_neg hn, hmono fuel hf]
  · intro fuel b2 u0
    have hw : (portWrite stallPort (encodeLoop 8 b2 []) u0).2
        = ((encodeLoop 8 b2 []).length, none) := rfl
    simp only [writeByte, hw, ne_eq, not_true_eq_false, if_false,
      readLoop_stall fuel _ 0 [] (by norm_num)]

theorem eofPort_progress (s : List Byte) :
    (eofPort.Read 8 s).1.2 ≠ none ∨ 0 < (eofPort.Read 8 s).1.1.length := by
  by_cases h : s = []
  · left
    simp [eofPort, h]
  · right
    simp only [eofPort, if_neg h, List.length_take]
    have : 0 < s.length := List.length_pos.mpr h
    omega

/-- The hypothesis of C19 holds for the port that fails at the end of its
input: with two bytes to receive `writeByte` returns the error of its second
`Read`. -/
theorem writeByte_terminates_witness :
    (∀ s : List Byte, (eofPort.Read 8 s).1.2 ≠ none ∨ 0 < (eofPort.Read 8 s).1.1.length) ∧
    (∃ (u2 : USBtemp (List Byte)) (res : Byte × Option Error),
      writeByte eofPort 8 0x5a (newProbe [0xff, 0x00]) = some (u2, res) ∧
      readCount u2.trace ≤ readCount (newProbe [0xff, 0x00] : USBtemp (List Byte)).trace + 8) ∧
    ∃ u2 : USBtemp (List Byte),
      writeByte eofPort 8 0x5a (newProbe [0xff, 0x00])
        = some (u2, (0x00, some (Error.writeByteFailed (Error.transport 0)))) ∧
      readCount u2.trace = 2 := by
  obtain ⟨u2, res, h, hc, _⟩ :=
    (writeByte_terminates eofPort 0x5a (newProbe [0xff, 0x00]) eofPort_progress).1
  exact ⟨eofPort_progress, ⟨u2, res, h, hc⟩, _, rfl, rfl⟩

/-! ## C12: the baud rate of the slots -/

theorem modeAfter_append (a b : List Event) : ∀ m : Option Mode,
    modeAfter m (a ++ b) = modeAfter (modeAfter m a) b := by
  induction a with
  | nil => intro m; rfl
  | cons e a ih =>
    intro m
    cases e with
    | SetMode mode err => cases err <;> exact ih _
    | Drain err => exact ih _
    | Write p n err => exact ih _
    | Read len data err => exact ih _
    | Sleep s => exact ih _

theorem transfers_append (a b : List Event) : ∀ m : Option Mode,
    transfers m (a ++ b) = transfers m a ++ transfers (modeAfter m a) b := by
  induction a with
  | nil => intro m; rfl
  | cons e a ih =>
    intro m
    cases e with
    | SetMode mode err => cases err <;> exact ih _
    | Drain err => exact ih _
    | Write p n err => exact congrArg (List.cons (m, Event.Write p n err)) (ih m)
    | Read len data err => exact congrArg (List.cons (m, Event.Read len data err)) (ih m)
    | Sleep s => exact ih _

theorem DataSlotsFast_append (m : Option Mode) (a b : List Event)
    (ha : DataSlotsFast m a) (hb : DataSlotsFast (modeAfter m a) b) :
    DataSlotsFast m (a ++ b) := by
  intro mode p n err h
  rw [transfers_append, List.mem_append] at h
  rcases h with h | h
  · exact ha mode p n err h
  · exact hb mode p n err h

theorem Extends.refl (m : Option Mode) (u : USBtemp σ) : Extends m u u m :=
  ⟨[], by simp, fun _ _ _ _ h => by simp [transfers] at h, rfl⟩

theorem Extends.trans {m0 m1 m2 : Option Mode} {u u1 u2 : USBtemp σ}
    (h1 : Extends m0 u u1 m1) (h2 : Extends m1 u1 u2 m2) : Extends m0 u u2 m2 := by
  obtain ⟨a, ha, hfa, hma⟩ := h1
  obtain ⟨b, hb, hfb, hmb⟩ := h2
  refine ⟨a ++ b, by rw [hb, ha, List.append_assoc], ?_, ?_⟩
  · exact DataSlotsFast_append m0 a b hfa (by rw [hma]; exact hfb)
  · rw [modeAfter_append, hma, hmb]

theorem sleepSecond_extends (m : Option Mode) (u : USBtemp σ) :
    Extends m u (sleepSecond u) m :=
  ⟨[Event.Sleep 1], rfl, fun _ _ _ _ h => by simp [transfers] at h, rfl⟩

/-- The trace of `reset` keeps the slots in their modes and, when `reset`
succeeds, leaves the port at 115200 baud. -/
theorem reset_extends (P : Port σ) (u : USBtemp σ) (m0 : Option Mode) :
    ∃ m1 : Option Mode, Extends m0 u (reset P u).1 m1 ∧
      ((reset P u).2 = none → m1 = some mode115200) := by
  rcases reset_trace P u with ⟨e, he, ht⟩ | ⟨d, n, w, data, re, _, ⟨e, he, ht⟩ | ⟨he, ht⟩⟩
  · refine ⟨none, ⟨_, ht, fun _ _ _ _ h => by simp [transfers] at h, rfl⟩, fun h => ?_⟩
    rw [he] at h
    exact absurd h (by simp)
  · refine ⟨none, ⟨_, ht, fun mode p k err h => ?_, rfl⟩, fun h => ?_⟩
    · simp only [transfers, List.mem_cons, Prod.mk.injEq, Event.Write.injEq, List.mem_singleton,
        List.not_mem_nil, or_false, reduceCtorEq, and_false] at h
      exact Or.inl ⟨h.2.1, h.1⟩
    · rw [he] at h
      exact absurd h (by simp)
  · refine ⟨some mode115200, ⟨_, ht, fun mode p k err h => ?_, rfl⟩, fun _ => rfl⟩
    simp only [transfers, List.mem_cons, Prod.mk.injEq, Event.Write.injEq, List.mem_singleton,
      List.not_mem_nil, or_false, reduceCtorEq, and_false] at h
    exact Or.inl ⟨h.2.1, h.1⟩

theorem portRead_extends (P : Port σ) (m : Option Mode) (u : USBtemp σ) (len : Nat) :
    Extends m u (portRead P len u).1 m :=
  ⟨[Event.Read len (P.Read len u.port).1.1 (P.Read len u.port).1.2], rfl,
    fun _ _ _ _ h => by simp [transfers] at h, rfl⟩

/-- The read loop of `writeByte` writes nothing and sets no mode. -/
theorem readLoop_extends (P : Port σ) (m : Option Mode) :
    ∀ (fuel : Nat) (u u2 : USBtemp σ) (readBytes : Nat) (rbuff : List Byte)
      (res : List Byte × Option Error),
      readLoop P fuel u readBytes rbuff = some (u2, res) → Extends m u u2 m := by
  intro fuel
  induction fuel with
  | zero =>
    intro u u2 readBytes rbuff res h
    simp only [readLoop] at h
    split at h
    · exact absurd h (by simp)
    · simp only [Option.some.injEq, Prod.mk.injEq] at h
      rw [← h.1]
      exact Extends.refl m u
  | succ fuel ih =>
    intro u u2 readBytes rbuff res h
    simp only [readLoop] at h
    split at h
    · split at h
      · simp only [Option.some.injEq, Prod.mk.injEq] at h
        rw [← h.1]
        exact portRead_extends P m u 8
      · exact (portRead_extends P m u 8).trans (ih _ _ _ _ _ h)
    · simp only [Option.some.injEq, Prod.mk.injEq] at h
      rw [← h.1]
      exact Extends.refl m u

theorem portWrite_extends (P : Port σ) (b : Byte) (u : USBtemp σ) :
    Extends (some mode115200) u (portWrite P (encodeLoop 8 b []) u).1 (some mode115200) := by
  refine ⟨[Event.Write (encodeLoop 8 b []) (P.Write (encodeLoop 8 b []) u.port).1.1
    (P.Write (encodeLoop 8 b []) u.port).1.2], rfl, fun mode p n err h => ?_, rfl⟩
  simp only [transfers, List.mem_singleton, Prod.mk.injEq, Event.Write.injEq] at h
  exact Or.inr ⟨h.1, b, h.2.1⟩

/-- Started at 115200 baud, `writeByte` writes its markers at 115200 baud and
leaves the mode as it is. -/
theorem writeByte_extends (P : Port σ) (fuel : Nat) (b : Byte) (u u2 : USBtemp σ)
    (res : Byte × Option Error) (h : writeByte P fuel b u = some (u2, res)) :
    Extends (some mode115200) u u2 (some mode115200) := by
  have hw := portWrite_extends P b u
  simp only [writeByte] at h
  split at h
  · simp only [Option.some.injEq, Prod.mk.injEq] at h
    rw [← h.1]
    exact hw
  · split at h
    · simp only [Option.some.injEq, Prod.mk.injEq] at h
      rw [← h.1]
      exact hw
    · split at h
      · exact absurd h (by simp)
      · rename_i hloop
        simp only [Option.some.injEq, Prod.mk.injEq] at h
        rw [← h.1]
        exact hw.trans (readLoop_extends P _ _ _ _ _ _ _ hloop)
      · rename_i hloop
        simp only [Option.some.injEq, Prod.mk.injEq] at h
        rw [← h.1]
        exact hw.trans (readLoop_extends P _ _ _ _ _ _ _ hloop)

theorem write_extends (P : Port σ) (fuel : Nat) (b : Byte) (u u2 : USBtemp σ)
    (res : Option Error) (h : write P fuel b u = some (u2, res)) :
    Extends (some mode115200) u u2 (some mode115200) := by
  simp only [write] at h
  split at h
  · exact absurd h (by simp)
  · rename_i hwb
    simp only [Option.some.injEq, Prod.mk.injEq] at h
    rw [← h.1]
    exact writeByte_extends P fuel b u _ _ hwb
  · rename_i hwb
    have := writeByte_extends P fuel b u _ _ hwb
    split at h <;>
    · simp only [Option.some.injEq, Prod.mk.injEq] at h
      rw [← h.1]
      exact this

theorem readBytesLoop_extends (P : Port σ) (fuel : Nat) :
    ∀ (n : Nat) (u u2 : USBtemp σ) (x : List Byte) (res : List Byte × Option Error),
      readBytesLoop P fuel n u x = some (u2, res) →
        Extends (some mode115200) u u2 (some mode115200) := by
  intro n
  induction n with
  | zero =>
    intro u u2 x res h
    simp only [readBytesLoop, Option.some.injEq, Prod.mk.injEq] at h
    rw [← h.1]
    exact Extends.refl _ u
  | succ n ih =>
    intro u u2 x res h
    rw [readBytesLoop] at h
    split at h
    · exact absurd h (by simp)
    · rename_i hwb
      simp only [Option.some.injEq, Prod.mk.injEq] at h
      rw [← h.1]
      exact writeByte_extends P fuel 0xff u _ _ hwb
    · rename_i hwb
      exact (writeByte_extends P fuel 0xff u _ _ hwb).trans (ih _ _ _ _ h)

/-- The data slots of `Rom` are at 115200 baud. -/
theorem Rom_extends (P : Port σ) (fuel : Nat) (u u2 : USBtemp σ) (m0 : Option Mode)
    (res : String × Option Error) (h : Rom P fuel u = some (u2, res)) :
    ∃ m1, Extends m0 u u2 m1 := by
  obtain ⟨m1, hr, hm⟩ := reset_extends P u m0
  cases hreset : reset P u with
  | mk u1 e1 =>
  rw [hreset] at hr hm
  cases e1 with
  | some e =>
    simp only [Rom, hreset, Option.some.injEq, Prod.mk.injEq] at h
    rw [← h.1]
    exact ⟨m1, hr⟩
  | none =>
    rw [hm rfl] at hr
    cases hw : write P fuel 0x33 u1 with
    | none => simp only [Rom, hreset, hw] at h; exact absurd h (by simp)
    | some r =>
      obtain ⟨ua, ea⟩ := r
      have ha := hr.trans (write_extends P fuel 0x33 u1 ua ea hw)
      cases ea with
      | some e =>
        simp only [Rom, hreset, hw, Option.some.injEq, Prod.mk.injEq] at h
        rw [← h.1]
        exact ⟨_, ha⟩
      | none =>
        cases hb : readBytes P fuel 8 ua with
        | none => simp only [Rom, hreset, hw, hb] at h; exact absurd h (by simp)
        | some r2 =>
          obtain ⟨ub, data, eb⟩ := r2
          have hbx := ha.trans (readBytesLoop_extends P fuel 8 ua ub [] _ hb)
          cases eb <;>
          · simp only [Rom, hreset, hw, hb, Option.some.injEq, Prod.mk.injEq] at h
            rw [← h.1]
            exact ⟨_, hbx⟩

/-- The data slots of `Temperature` are at 115200 baud. -/
theorem Temperature_extends (P : Port σ) (fuel : Nat) (fahrenheit : Bool) (u u2 : USBtemp σ)
    (m0 : Option Mode) (res : ℚ × Option Error)
    (h : Temperature P fuel fahrenheit u = some (u2, res)) :
    ∃ m1, Extends m0 u u2 m1 := by
  obtain ⟨m1, hr, hm⟩ := reset_extends P u m0
  cases hreset : reset P u with
  | mk u1 e1 =>
  rw [hreset] at hr hm
  cases e1 with
  | some e =>
    simp only [Temperature, hreset, Option.some.injEq, Prod.mk.injEq] at h
    rw [← h.1]
    exact ⟨m1, hr⟩
  | none =>
  rw [hm rfl] at hr
  cases hw1 : write P fuel 0xcc u1 with
  | none => simp only [Temperature, hreset, hw1] at h; exact absurd h (by simp)
  | some r =>
  obtain ⟨ua, ea⟩ := r
  have ha := hr.trans (write_extends P fuel 0xcc u1 ua ea hw1)
  cases ea with
  | some e =>
    simp only [Temperature, hreset, hw1, Option.some.injEq, Prod.mk.injEq] at h
    rw [← h.1]
    exact ⟨_, ha⟩
  | none =>
  cases hw2 : write P fuel 0x44 ua with
  | none => simp only [Temperature, hreset, hw1, hw2] at h; exact absurd h (by simp)
  | some r =>
  obtain ⟨ub, eb⟩ := r
  have hb := ha.trans (write_extends P fuel 0x44 ua ub eb hw2)
  cases eb with
  | some e =>
    simp only [Temperature, hreset, hw1, hw2, Option.some.injEq, Prod.mk.injEq] at h
    rw [← h.1]
    exact ⟨_, hb⟩
  | none =>
  have hs := hb.trans (sleepSecond_extends (some mode115200) ub)
  obtain ⟨m2, hr2, hm2⟩ := reset_extends P (sleepSecond ub) (some mode115200)
  cases hreset2 : reset P (sleepSecond ub) with
  | mk uc ec =>
  rw [hreset2] at hr2 hm2
  have hc := hs.trans hr2
  cases ec with
  | some e =>
    simp only [Temperature, hreset, hw1, hw2, hreset2, Option.some.injEq, Prod.mk.injEq] at h
    rw [← h.1]
    exact ⟨_, hc⟩
  | none =>
  rw [hm2 rfl] at hc
  cases hw3 : write P fuel 0xcc uc with
  | none => simp only [Temperature, hreset, hw1, hw2, hreset2, hw3] at h; exact absurd h (by simp)
  | some r =>
  obtain ⟨ud, ed⟩ := r
  have hd := hc.trans (write_extends P fuel 0xcc uc ud ed hw3)
  cases ed with
  | some e =>
    simp only [Temperature, hreset, hw1, hw2, hreset2, hw3, Option.some.injEq,
      Prod.mk.injEq] at h
    rw [← h.1]
    exact ⟨_, hd⟩
  | none =>
  cases hw4 : write P fuel 0xbe ud with
  | none =>
    simp only [Temperature, hreset, hw1, hw2, hreset2, hw3, hw4] at h
    exact absurd h (by simp)
  | some r =>
  obtain ⟨ue, ee⟩ := r
  have he := hd.trans (write_extends P fuel 0xbe ud ue ee hw4)
  cases ee with
  | some e =>
    simp only [Temperature, hreset, hw1, hw2, hreset2, hw3, hw4, Option.some.injEq,
      Prod.mk.injEq] at h
    rw [← h.1]
    exact ⟨_, he⟩
  | none =>
  cases hrb : readBytes P fuel 9 ue with
  | none =>
    simp only [Temperature, hreset, hw1, hw2, hreset2, hw3, hw4, hrb] at h
    exact absurd h (by simp)
  | some r =>
  obtain ⟨uf, data, ef⟩ := r
  have hf := he.trans (readBytesLoop_extends P fuel 9 ue uf [] _ hrb)
  cases ef with
  | some e =>
    simp only [Temperature, hreset, hw1, hw2, hreset2, hw3, hw4, hrb, Option.some.injEq,
      Prod.mk.injEq] at h
    rw [← h.1]
    exact ⟨_, hf⟩
  | none =>
    simp only [Temperature, hreset, hw1, hw2, hreset2, hw3, hw4, hrb] at h
    split at h <;>
    · simp only [Option.some.injEq, Prod.mk.injEq] at h
      rw [← h.1]
      exact ⟨_, hf⟩

theorem SlotBauds_of_fast (m : Option Mode) (evs : List Event) (h : DataSlotsFast m evs) :
    SlotBauds m evs := by
  intro mode p n err hmem
  rcases h mode p n err hmem with ⟨hp, hm⟩ | ⟨hm, hb⟩
  · exact Or.inl ⟨hp, by rw [hm]; rfl⟩
  · exact Or.inr ⟨by rw [hm]; rfl, hb⟩

/-- A `write` that does not return hangs in its `writeByte`. -/
theorem write_stall (P : Port σ) (fuel : Nat) (b : Byte) (u : USBtemp σ)
    (h : write P fuel b u = none) : writeByte P fuel b u = none := by
  simp only [write] at h
  split at h
  · assumption
  · exact absurd h (by simp)
  · split at h <;> exact absurd h (by simp)

/-- A `readBytes` loop that does not return hangs in one of its exchanges,
reached at 115200 baud through exchanges that kept that mode. -/
theorem readBytesLoop_stall (P : Port σ) (fuel : Nat) :
    ∀ (n : Nat) (u : USBtemp σ) (x : List Byte),
      readBytesLoop P fuel n u x = none →
        ∃ w : USBtemp σ, Extends (some mode115200) u w (some mode115200) ∧
          writeByte P fuel 0xff w = none := by
  intro n
  induction n with
  | zero => intro u x h; simp [readBytesLoop] at h
  | succ n ih =>
    intro u x h
    rw [readBytesLoop] at h
    split at h
    · rename_i hwb
      exact ⟨u, Extends.refl _ u, hwb⟩
    · exact absurd h (by simp)
    · rename_i hwb
      obtain ⟨w, hw, hs⟩ := ih _ _ h
      exact ⟨w, (writeByte_extends P fuel 0xff u _ _ hwb).trans hw, hs⟩

/-- A run of `Rom` that does not return hangs in a `writeByte` reached at
115200 baud. -/
theorem Rom_stall (P : Port σ) (fuel : Nat) (u : USBtemp σ) (m0 : Option Mode)
    (h : Rom P fuel u = none) :
    ∃ (w : USBtemp σ) (b : Byte), Extends m0 u w (some mode115200) ∧
      writeByte P fuel b w = none := by
  obtain ⟨m1, hr, hm⟩ := reset_extends P u m0
  cases hreset : reset P u with
  | mk u1 e1 =>
  rw [hreset] at hr hm
  cases e1 with
  | some e => simp only [Rom, hreset] at h; exact absurd h (by simp)
  | none =>
    rw [hm rfl] at hr
    cases hw : write P fuel 0x33 u1 with
    | none => exact ⟨u1, 0x33, hr, write_stall P fuel 0x33 u1 hw⟩
    | some r =>
      obtain ⟨ua, ea⟩ := r
      have ha := hr.trans (write_extends P fuel 0x33 u1 ua ea hw)
      cases ea with
      | some e => simp only [Rom, hreset, hw] at h; exact absurd h (by simp)
      | none =>
        cases hb : readBytes P fuel 8 ua with
        | none =>
          obtain ⟨w, hwx, hs⟩ := readBytesLoop_stall P fuel 8 ua [] hb
          exact ⟨w, 0xff, ha.trans hwx, hs⟩
        | some r2 =>
          obtain ⟨ub, data, eb⟩ := r2
          cases eb <;>
          · simp only [Rom, hreset, hw, hb] at h
            exact absurd h (by simp)

/-- A run of `Temperature` that does not return hangs in a `writeByte` reached
at 115200 baud. -/
theorem Temperature_stall (P : Port σ) (fuel : Nat) (fahrenheit : Bool) (u : USBtemp σ)
    (m0 : Option Mode) (h : Temperature P fuel fahrenheit u = none) :
    ∃ (w : USBtemp σ) (b : Byte), Extends m0 u w (some mode115200) ∧
      writeByte P fuel b w = none := by
  obtain ⟨m1, hr, hm⟩ := reset_extends P u m0
  cases hreset : reset P u with
  | mk u1 e1 =>
  rw [hreset] at hr hm
  cases e1 with
  | some e => simp only [Temperature, hreset] at h; exact absurd h (by simp)
  | none =>
  rw [hm rfl] at hr
  cases hw1 : write P fuel 0xcc u1 with
  | none => exact ⟨u1, 0xcc, hr, write_stall P fuel 0xcc u1 hw1⟩
  | some r =>
  obtain ⟨ua, ea⟩ := r
  have ha := hr.trans (write_extends P fuel 0xcc u1 ua ea hw1)
  cases ea with
  | some e => simp only [Temperature, hreset, hw1] at h; exact absurd h (by simp)
  | none =>
  cases hw2 : write P fuel 0x44 ua with
  | none => exact ⟨ua, 0x44, ha, write_stall P fuel 0x44 ua hw2⟩
  | some r =>
  obtain ⟨ub, eb⟩ := r
  have hb := ha.trans (write_extends P fuel 0x44 ua ub eb hw2)
  cases eb with
  | some e => simp only [Temperature, hreset, hw1, hw2] at h; exact absurd h (by simp)
  | none =>
  have hs := hb.trans (sleepSecond_extends (some mode115200) ub)
  obtain ⟨m2, hr2, hm2⟩ := reset_extends P (sleepSecond ub) (some mode115200)
  cases hreset2 : reset P (sleepSecond ub) with
  | mk uc ec =>
  rw [hreset2] at hr2 hm2
  have hc := hs.trans hr2
  cases ec with
  | some e =>
    simp only [Temperature, hreset, hw1, hw2, hreset2] at h
    exact absurd h (by simp)
  | none =>
  rw [hm2 rfl] at hc
  cases hw3 : write P fuel 0xcc uc with
  | none => exact ⟨uc, 0xcc, hc, write_stall P fuel 0xcc uc hw3⟩
  | some r =>
  obtain ⟨ud, ed⟩ := r
  have hd := hc.trans (write_extends P fuel 0xcc uc ud ed hw3)
  cases ed with
  | some e =>
    simp only [Temperature, hreset, hw1, hw2, hreset2, hw3] at h
    exact absurd h (by simp)
  | none =>
  cases hw4 : write P fuel 0xbe ud with
  | none => exact ⟨ud, 0xbe, hd, write_stall P fuel 0xbe ud hw4⟩
  | some r =>
  obtain ⟨ue, ee⟩ := r
  have he := hd.trans (write_extends P fuel 0xbe ud ue ee hw4)
  cases ee with
  | some e =>
    simp only [Temperature, hreset, hw1, hw2, hreset2, hw3, hw4] at h
    exact absurd h (by simp)
  | none =>
  cases hrb : readBytes P fuel 9 ue with
  | none =>
    obtain ⟨w, hwx, hst⟩ := readBytesLoop_stall P fuel 9 ue [] hrb
    exact ⟨w, 0xff, he.trans hwx, hst⟩
  | some r =>
  obtain ⟨uf, data, ef⟩ := r
  cases ef with
  | some e =>
    simp only [Temperature, hreset, hw1, hw2, hreset2, hw3, hw4, hrb] at h
    exact absurd h (by simp)
  | none =>
    simp only [Temperature, hreset, hw1, hw2, hreset2, hw3, hw4, hrb] at h
    split at h <;> exact absurd h (by simp)

/-- What a run that hangs in `writeByte(b)` at the state `w` has written: the
events up to `w` and the `Write` of the markers of `b`, all at their baud
rates. -/
theorem stall_slots (P : Port σ) (u w : USBtemp σ) (b : Byte) (m0 : Option Mode)
    (hx : Extends m0 u w (some mode115200)) :
    ∃ (evs : List Event) (n : Nat) (err : Option Error),
      w.trace = u.trace ++ evs ∧
      (portWrite P (encodeLoop 8 b []) w).1.trace
        = u.trace ++ (evs ++ [Event.Write (encodeLoop 8 b []) n err]) ∧
      SlotBauds m0 (evs ++ [Event.Write (encodeLoop 8 b []) n err]) := by
  obtain ⟨evs, ht, hf, hm⟩ := hx.trans (portWrite_extends P b w)
  obtain ⟨evs0, ht0, _, _⟩ := hx
  refine ⟨evs0, (P.Write (encodeLoop 8 b []) w.port).1.1,
    (P.Write (encodeLoop 8 b []) w.port).1.2, ht0, ?_, ?_⟩
  · simp only [portWrite, ht0, List.append_assoc]
  · have heq : evs = evs0 ++ [Event.Write (encodeLoop 8 b [])
        (P.Write (encodeLoop 8 b []) w.port).1.1 (P.Write (encodeLoop 8 b []) w.port).1.2] := by
      have h1 : (portWrite P (encodeLoop 8 b []) w).1.trace = u.trace ++ evs := ht
      simp only [portWrite, ht0, List.append_assoc] at h1
      exact (List.append_cancel_left h1).symm
    rw [← heq]
    exact SlotBauds_of_fast m0 evs hf

/-- C12: in a run of `reset` in which no `SetMode` fails, the reset marker is
written and its response read while the port is at 9600 baud (8 data bits),
and the port is at 115200 baud when `reset` returns, whatever the response.
In every run of `Rom` and of `Temperature`, each `Write` is either the reset
marker, at 9600 baud, or the eight `0x00`/`0xFF` markers of a byte, at 115200
baud: this holds for the whole trace of a run that returns, and, for a run that
never returns because a `writeByte(b)` hangs in its read loop, for everything
written up to and including the markers of `b`.  The mode before the run, `m0`,
is arbitrary. -/
theorem baud_rate_invariant (P : Port σ) (fuel : Nat) (fahrenheit : Bool) (u : USBtemp σ)
    (m0 : Option Mode) :
    ((∀ e, (reset P u).2 ≠ some (Error.resetSetMode e)) →
      ∃ (evs : List Event) (n : Nat) (wErr rErr : Option Error) (data : List Byte),
        (reset P u).1.trace = u.trace ++ evs ∧
        transfers m0 evs
          = [(some { BaudRate := 9600, DataBits := 8 }, Event.Write [0xf0] n wErr),
              (some { BaudRate := 9600, DataBits := 8 }, Event.Read 1 data rErr)] ∧
        modeAfter m0 evs = some { BaudRate := 115200, DataBits := 8 }) ∧
    (∀ (u2 : USBtemp σ) (res : String × Option Error), Rom P fuel u = some (u2, res) →
      ∃ evs : List Event, u2.trace = u.trace ++ evs ∧ SlotBauds m0 evs) ∧
    (Rom P fuel u = none →
      ∃ (w : USBtemp σ) (b : Byte) (evs : List Event) (n : Nat) (err : Option Error),
        writeByte P fuel b w = none ∧
        w.trace = u.trace ++ evs ∧
        (portWrite P (encodeLoop 8 b []) w).1.trace
          = u.trace ++ (evs ++ [Event.Write (encodeLoop 8 b []) n err]) ∧
        SlotBauds m0 (evs ++ [Event.Write (encodeLoop 8 b []) n err])) ∧
    (∀ (u2 : USBtemp σ) (res : ℚ × Option Error),
      Temperature P fuel fahrenheit u = some (u2, res) →
      ∃ evs : List Event, u2.trace = u.trace ++ evs ∧ SlotBauds m0 evs) ∧
    (Temperature P fuel fahrenheit u = none →
      ∃ (w : USBtemp σ) (b : Byte) (evs : List Event) (n : Nat) (err : Option Error),
        writeByte P fuel b w = none ∧
        w.trace = u.trace ++ evs ∧
        (portWrite P (encodeLoop 8 b []) w).1.trace
          = u.trace ++ (evs ++ [Event.Write (encodeLoop 8 b []) n err]) ∧
        SlotBauds m0 (evs ++ [Event.Write (encodeLoop 8 b []) n err])) := by
  refine ⟨fun hok => ?_, fun u2 res h => ?_, fun h => ?_, fun u2 res h => ?_, fun h => ?_⟩
  · rcases reset_trace P u with ⟨e, he, _⟩ | ⟨d, n, w, data, re, _, ⟨e, he, _⟩ | ⟨_, ht⟩⟩
    · exact absurd he (hok e)
    · exact absurd he (hok e)
    · exact ⟨_, n, w, re, data, ht, rfl, rfl⟩
  · obtain ⟨m1, evs, ht, hf, _⟩ := Rom_extends P fuel u u2 m0 res h
    exact ⟨evs, ht, SlotBauds_of_fast m0 evs hf⟩
  · obtain ⟨w, b, hx, hs⟩ := Rom_stall P fuel u m0 h
    obtain ⟨evs, n, err, h1, h2, h3⟩ := stall_slots P u w b m0 hx
    exact ⟨w, b, evs, n, err, hs, h1, h2, h3⟩
  · obtain ⟨m1, evs, ht, hf, _⟩ := Temperature_extends P fuel fahrenheit u u2 m0 res h
    exact ⟨evs, ht, SlotBauds_of_fast m0 evs hf⟩
  · obtain ⟨w, b, hx, hs⟩ := Temperature_stall P fuel fahrenheit u m0 h
    obtain ⟨evs, n, err, h1, h2, h3⟩ := stall_slots P u w b m0 hx
    exact ⟨w, b, evs, n, err, hs, h1, h2, h3⟩

/-- The parts of C12 apply on the replay port: with the presence byte `0x55`
the marker is written and the byte read at 9600 baud; and with nothing to
receive after it, `Rom()` hangs in a `writeByte` whose markers were written at
115200 baud. -/
theorem baud_rate_invariant_witness :
    (∃ (evs : List Event) (n : Nat) (wErr rErr : Option Error) (data : List Byte),
      (reset replayPort (newProbe [0x55])).1.trace = (newProbe [0x55]).trace ++ evs ∧
      transfers none evs
        = [(some { BaudRate := 9600, DataBits := 8 }, Event.Write [0xf0] n wErr),
            (some { BaudRate := 9600, DataBits := 8 }, Event.Read 1 data rErr)] ∧
      modeAfter none evs = some { BaudRate := 115200, DataBits := 8 }) ∧
    Rom replayPort 1 (newProbe [0x55]) = none ∧
    ∃ (w : USBtemp (List Byte)) (b : Byte) (evs : List Event) (n : Nat) (err : Option Error),
      writeByte replayPort 1 b w = none ∧
      w.trace = (newProbe [0x55] : USBtemp (List Byte)).trace ++ evs ∧
      (portWrite replayPort (encodeLoop 8 b []) w).1.trace
        = (newProbe [0x55] : USBtemp (List Byte)).trace
          ++ (evs ++ [Event.Write (encodeLoop 8 b []) n err]) ∧
      SlotBauds none (evs ++ [Event.Write (encodeLoop 8 b []) n err]) :=
  ⟨(baud_rate_invariant replayPort 1 false (newProbe [0x55]) none).1 (fun e => by
      rw [show (reset replayPort (newProbe [0x55])).2 = none from rfl]
      simp),
    rfl,
    (baud_rate_invariant replayPort 1 false (newProbe [0x55]) none).2.2.1 rfl⟩

/-! ## C13: errors of the port inside `reset` -/

/-- C13 fails on the code: `reset` drops what `Write` and `Read` return.  On a
port that fails the `Write` of the reset marker, `Rom()` goes on with 20 more
calls on the port and returns the identifier with no error; and on a port whose
`Read` of the presence response fails with no byte, `reset` still calls
`SetMode` afterwards and `Rom()` returns the short-circuit error, which does
not wrap the failure. -/
theorem reset_ignores_port_errors :
    (∃ u3 : USBtemp (List Byte),
      Rom markerFailPort 1
          (newProbe ([0x55] ++ lineBits [0x33] ++
            lineBits [0x28, 0x01, 0x02, 0x03, 0x04, 0x05, 0x06, 0xff]))
        = some (u3, ("28010203040506ff", none)) ∧
      u3.trace.take 3 = [Event.SetMode mode9600 none, Event.Drain none,
        Event.Write [0xf0] 0 (some (Error.transport 5))] ∧
      u3.trace.length = 23) ∧
    (∃ u1 : USBtemp (List Byte),
      Rom eofPort 1 (newProbe []) = some (u1, ("", some Error.resetShortCircuit)) ∧
      u1.trace = [Event.SetMode mode9600 none, Event.Drain none, Event.Write [0xf0] 1 none,
        Event.Read 1 [] (some (Error.transport 0)), Event.SetMode mode115200 none]) :=
  ⟨⟨_, rfl, rfl, rfl⟩, ⟨_, rfl, rfl⟩⟩

/-! ## C15: how many bytes the read loop takes -/

/-- C15 fails on the code: every `Read` of the loop is made with the whole
8-byte buffer.  On a loop-back port that hands out five bytes per `Read` and
holds two bytes from before, `writeByte(0x5a)` returns with no error after
two `Read` calls that delivered ten bytes, and the queue is empty. -/
theorem writeByte_reads_ten_bytes :
    ∃ u2 : USBtemp (List Byte),
      writeByte (loopbackPort 5) 8 0x5a (newProbe [0x00, 0x00]) = some (u2, (0x5a, none)) ∧
      u2.trace = [Event.Write [0x00, 0xff, 0x00, 0xff, 0xff, 0x00, 0xff, 0x00] 8 none,
        Event.Read 8 [0x00, 0x00, 0x00, 0xff, 0x00] none,
        Event.Read 8 [0xff, 0xff, 0x00, 0xff, 0x00] none] ∧
      bytesRead u2.trace = 10 ∧
      u2.port = [] :=
  ⟨_, rfl, rfl, rfl, rfl⟩

/-! ## C16: `Open` without a matching port -/

theorem openLoop_no_match {τ : Type} (portName : String) :
    ∀ (ports : List PortDetails) (u : USBtemp (Option τ)),
      (∀ port ∈ ports, port.Name ≠ portName) →
      openLoop ports portName none u = (none, u) := by
  intro ports
  induction ports with
  | nil => intro u _; rfl
  | cons port rest ih =>
    intro u h
    rw [openLoop, if_neg (h port (List.mem_cons_self _ _))]
    exact ih u (fun p hp => h p (List.mem_cons_of_mem _ hp))

/-- On every non-empty enumerated list with no port named `portName`, `Open`
does not return: it dereferences the nil `curPort`. -/
theorem Open_no_match {τ : Type} (ports : List PortDetails)
    (serialOpen : String → Mode → Except Error τ) (portName : String)
    (u : USBtemp (Option τ)) (hne : ports ≠ [])
    (hno : ∀ port ∈ ports, port.Name ≠ portName) :
    Open (ports, none) serialOpen portName u = Outcome.nilDereference := by
  have hlen : ¬ ports.length = 0 := fun h => hne (List.length_eq_zero.mp h)
  simp only [Open, if_neg hlen, openLoop_no_match portName ports u hno]

/-- C16 fails on the code: with the single enumerated port `/dev/ttyS0`,
`Open("/dev/ttyUSB0")` returns no error value; it ends in the dereference of
the nil `curPort`. -/
theorem Open_nil_dereference :
    Open (τ := Unit)
        ([{ Name := "/dev/ttyS0", IsUSB := false, VID := "", PID := "", SerialNumber := "" }],
          none)
        (fun _ _ => Except.ok ()) "/dev/ttyUSB0" closedProbe
      = Outcome.nilDereference :=
  Open_no_match _ _ _ _ (by simp) (by decide)

end usbtemp
